import Mathlib

/-!
Verification of the TimeTable scheduling system.

This file gives a shallow embedding of the scheduling core:
  * `build_sections_for_semester` (scheduling/utils.py)
  * `merge_usage_data` (scheduling/optimization_utils.py), both as a pure
    ledger transformer and as a heap-level program for the frame property
  * the CP-SAT model of `schedule_timetable` (scheduling/solver.py): the set
    of created decision variables, the posted constraints as predicates over
    a boolean valuation, and the result-extraction phase
  * the CP-SAT model of `schedule_electives` (scheduling/electives_solver.py)
  * the greedy teacher assignment of `TeacherAssigner.assign_teachers`
    (backend/scheduler/services/teacher_assigner.py)

A CP solve is modelled by an arbitrary valuation of the decision variables;
the theorems assume that the valuation satisfies the constraints the Python
code posts on the model, which is exactly the guarantee the solver gives for
a FEASIBLE/OPTIMAL outcome.
-/

/-! ## Small association-list library (Python `dict` semantics)

Python dictionaries are modelled as association lists with unique keys.
`alget` is `dict.get`, `aset` is item assignment (replacing in place),
membership `m.any (·.1 == k)` is `k in dict`. -/

def alget {β : Type} (m : List (String × β)) (k : String) : Option β :=
  (m.find? (fun p => p.1 == k)).map Prod.snd

def aset {β : Type} (m : List (String × β)) (k : String) (v : β) :
    List (String × β) :=
  if m.any (fun p => p.1 == k) then
    m.map (fun p => if p.1 == k then (k, v) else p)
  else
    m ++ [(k, v)]

theorem alget_nil {β : Type} (k : String) : alget ([] : List (String × β)) k = none := rfl

theorem alget_cons {β : Type} (p : String × β) (m : List (String × β)) (k : String) :
    alget (p :: m) k = if p.1 == k then some p.2 else alget m k := by
  by_cases h : p.1 == k
  · simp [alget, List.find?_cons, h]
  · simp only [Bool.not_eq_true] at h
    simp [alget, List.find?_cons, h]

theorem alget_map_replace_ne {β : Type} (m : List (String × β)) (k k' : String)
    (v : β) (h : k' ≠ k) :
    alget (m.map (fun p => if p.1 == k then (k, v) else p)) k' = alget m k' := by
  induction m with
  | nil => rfl
  | cons p rest ih =>
    simp only [List.map_cons]
    rw [alget_cons, alget_cons]
    cases hp : p.1 == k with
    | true =>
      have h1 : ¬(k = k') := fun hkk => h hkk.symm
      have h2 : ¬(p.1 = k') := by
        rw [show p.1 = k by simpa using hp]; exact h1
      simp only [hp]
      simp [h1, h2]
      simpa using ih
    | false =>
      simp only [hp, Bool.false_eq_true, if_neg, not_false_iff]
      cases hq : p.1 == k' with
      | true => simp [hq]
      | false =>
        simp only [hq, Bool.false_eq_true, if_neg, not_false_iff]
        simpa using ih

theorem alget_map_replace_self {β : Type} (m : List (String × β)) (k : String)
    (v : β) (hmem : m.any (fun p => p.1 == k) = true) :
    alget (m.map (fun p => if p.1 == k then (k, v) else p)) k = some v := by
  induction m with
  | nil => simp at hmem
  | cons p rest ih =>
    simp only [List.map_cons]
    rw [alget_cons]
    cases hp : p.1 == k with
    | true => simp [if_pos rfl]
    | false =>
      simp only [Bool.false_eq_true, if_neg, not_false_iff, hp]
      apply ih
      simpa [hp] using hmem

theorem alget_append_one_ne {β : Type} (m : List (String × β)) (k k' : String)
    (v : β) (h : k' ≠ k) : alget (m ++ [(k, v)]) k' = alget m k' := by
  induction m with
  | nil =>
    rw [List.nil_append, alget_cons, alget_nil]
    have h1 : (k == k') = false := by
      simp only [beq_eq_false_iff_ne, ne_eq]
      exact fun hkk => h hkk.symm
    simp [h1, alget_nil]
  | cons p rest ih =>
    rw [List.cons_append, alget_cons, alget_cons]
    cases hq : p.1 == k' with
    | true => simp
    | false => simp [ih]

theorem alget_append_one_self {β : Type} (m : List (String × β)) (k : String)
    (v : β) (hmem : m.any (fun p => p.1 == k) = false) :
    alget (m ++ [(k, v)]) k = some v := by
  induction m with
  | nil => simp [alget_cons]
  | cons p rest ih =>
    simp only [List.any_cons, Bool.or_eq_false_iff] at hmem
    rw [List.cons_append, alget_cons]
    simp only [hmem.1, Bool.false_eq_true, if_neg, not_false_iff]
    exact ih hmem.2

/-- Looking up a key other than the one just set is unchanged. -/
theorem alget_aset_ne {β : Type} (m : List (String × β)) (k k' : String) (v : β)
    (h : k' ≠ k) : alget (aset m k v) k' = alget m k' := by
  unfold aset
  cases hmem : m.any (fun p => p.1 == k) with
  | true =>
    simp only [if_pos rfl]
    exact alget_map_replace_ne m k k' v h
  | false =>
    simp only [Bool.false_eq_true, if_neg, not_false_iff]
    exact alget_append_one_ne m k k' v h

/-- Looking up the key just set yields the new value. -/
theorem alget_aset_self {β : Type} (m : List (String × β)) (k : String) (v : β) :
    alget (aset m k v) k = some v := by
  unfold aset
  cases hmem : m.any (fun p => p.1 == k) with
  | true =>
    simp only [if_pos rfl]
    exact alget_map_replace_self m k v hmem
  | false =>
    simp only [Bool.false_eq_true, if_neg, not_false_iff]
    exact alget_append_one_self m k v hmem

/-! ## Section builder (`build_sections_for_semester`, scheduling/utils.py)

```python
def build_sections_for_semester(semester_num, num_students, section_size=50, program_code="A"):
    count = math.ceil(num_students / section_size)
    sections = []
    for i in range(count):
        sections.append(f"S{semester_num}{program_code}{i+1}")
    return sections
```
The ceiling of the exact division `num_students / section_size` is
`(num_students + section_size - 1) / section_size` in natural division. -/

def build_sections_for_semester (semester_num num_students section_size : Nat)
    (program_code : String) : List String :=
  (List.range ((num_students + section_size - 1) / section_size)).map
    (fun i => "S" ++ toString semester_num ++ program_code ++ toString (i + 1))

/-- The program code default used by the app (`program_code="A"`). -/
def pcA : String := "A"

/-- `build_sections_for_semester 1 0 50 "A"` returns the empty list: with zero
students there is no section, so the number of section codes is 0, not at
least 1.  This refutes the "always at least 1" part of the claim. -/
theorem build_sections_zero_students :
    build_sections_for_semester 1 0 50 pcA = [] ∧
    ¬ 1 ≤ (build_sections_for_semester 1 0 50 pcA).length := by
  constructor
  · rfl
  · decide

/-- Amended C8: for `section_size > 0`, `build_sections_for_semester` returns
exactly `⌈n / s⌉` codes (characterised by `n ≤ s·len < n + s` together with
`len = (n + s - 1) / s`), at least 1 whenever `n ≥ 1` (for `n = 0` it is
empty), each named `S<sem><programCode><index>` with index starting at 1. -/
theorem build_sections_spec (sem n s : Nat) (pc : String) (hs : 0 < s) :
    (build_sections_for_semester sem n s pc).length = (n + s - 1) / s ∧
    n ≤ s * (build_sections_for_semester sem n s pc).length ∧
    s * (build_sections_for_semester sem n s pc).length < n + s ∧
    (0 < n → 0 < (build_sections_for_semester sem n s pc).length) ∧
    ∀ i, (h : i < (build_sections_for_semester sem n s pc).length) →
      (build_sections_for_semester sem n s pc)[i] =
        "S" ++ toString sem ++ pc ++ toString (i + 1) := by
  have hlen : (build_sections_for_semester sem n s pc).length = (n + s - 1) / s := by
    simp [build_sections_for_semester]
  have hd := Nat.div_add_mod (n + s - 1) s
  have hm : (n + s - 1) % s < s := Nat.mod_lt _ hs
  have hle : n ≤ s * ((n + s - 1) / s) := by omega
  have hlt : s * ((n + s - 1) / s) < n + s := by
    have := Nat.div_mul_le_self (n + s - 1) s
    omega
  refine ⟨hlen, by rw [hlen]; exact hle, by rw [hlen]; exact hlt, ?_, ?_⟩
  · intro hn
    by_contra h0
    have hq : (build_sections_for_semester sem n s pc).length = 0 := by omega
    rw [hlen] at hq
    rw [hq] at hle
    omega
  · intro i h
    simp [build_sections_for_semester]

/-- Witness for `build_sections_spec` at semester 2, 120 students, size 50. -/
theorem build_sections_spec_witness :
    0 < 50 ∧
    ((build_sections_for_semester 2 120 50 pcA).length = (120 + 50 - 1) / 50 ∧
    120 ≤ 50 * (build_sections_for_semester 2 120 50 pcA).length ∧
    50 * (build_sections_for_semester 2 120 50 pcA).length < 120 + 50 ∧
    (0 < 120 → 0 < (build_sections_for_semester 2 120 50 pcA).length) ∧
    ∀ i, (h : i < (build_sections_for_semester 2 120 50 pcA).length) →
      (build_sections_for_semester 2 120 50 pcA)[i] =
        "S" ++ toString 2 ++ pcA ++ toString (i + 1)) :=
  ⟨by decide, build_sections_spec 2 120 50 pcA (by decide)⟩

/-! ## Usage ledger and `merge_usage_data` (scheduling/optimization_utils.py)

```python
def merge_usage_data(existing_usage, new_allocations):
    usage = copy.deepcopy(existing_usage)  # after a module-local copy import
    if 'theory' not in usage: usage['theory'] = {}
    if 'lab' not in usage: usage['lab'] = {}
    for (rtype, room, day, slot, label) in new_allocations:
        if room not in usage[rtype]: usage[rtype][room] = {}
        if day not in usage[rtype][room]: usage[rtype][room][day] = []
        if slot not in usage[rtype][room][day]:
            usage[rtype][room][day].append(slot)
    return usage
```

The ledger is a dict kind → room → day → list of slot indices.  An
allocation whose `rtype` is not a key of the ledger (e.g. the `"cohort"`
allocations the solver can emit) raises `KeyError`; that is modelled by the
`Option` result of `insertAlloc`/`merge_usage_data`. -/

/-- One allocation tuple `(rtype, room, day, slot, occupant_label)`. -/
structure Alloc where
  rtype : String
  room : String
  day : String
  slot : Nat
  label : String
deriving DecidableEq, Repr

abbrev DaySlots := List (String × List Nat)
abbrev RoomDays := List (String × DaySlots)
abbrev PUsage := List (String × RoomDays)

instance : DecidableEq (String × List Nat) := inferInstance
instance : DecidableEq DaySlots := inferInstance
instance : DecidableEq (String × DaySlots) := inferInstance
instance : DecidableEq RoomDays := inferInstance
instance : DecidableEq (String × RoomDays) := inferInstance
instance : DecidableEq PUsage := inferInstance

/-- `if k not in usage: usage[k] = {}`. -/
def ensureKind (u : PUsage) (k : String) : PUsage :=
  if u.any (fun p => p.1 == k) then u else u ++ [(k, [])]

/-- One iteration of the merge loop (raises = `none` on a missing kind key). -/
def insertAlloc (u : PUsage) (a : Alloc) : Option PUsage :=
  match alget u a.rtype with
  | none => none
  | some rd =>
    let dm := (alget rd a.room).getD []
    let slots := (alget dm a.day).getD []
    let slots2 := if slots.contains a.slot then slots else slots ++ [a.slot]
    some (aset u a.rtype (aset rd a.room (aset dm a.day slots2)))

def mergeLoop : PUsage → List Alloc → Option PUsage
  | u, [] => some u
  | u, a :: rest =>
    match insertAlloc u a with
    | none => none
    | some u2 => mergeLoop u2 rest

def merge_usage_data (existing_usage : PUsage) (new_allocations : List Alloc) :
    Option PUsage :=
  mergeLoop (ensureKind (ensureKind existing_usage "theory") "lab") new_allocations

/-- The slot list the ledger holds under (kind, room, day): the chained read
`usage.get(kind, {}).get(room, {}).get(day, [])`. -/
def slotsOf (u : PUsage) (k r d : String) : List Nat :=
  (alget ((alget ((alget u k).getD []) r).getD []) d).getD []

/-- Whether slot `s` is listed under (kind, room, day). -/
def slotListed (u : PUsage) (k r d : String) (s : Nat) : Bool :=
  (slotsOf u k r d).contains s

/-- Ledger well-formedness: every level is a real dict (no repeated keys). -/
def wfPUsage (u : PUsage) : Prop :=
  (u.map Prod.fst).Nodup ∧
  ∀ p ∈ u, (p.2.map Prod.fst).Nodup ∧ ∀ q ∈ p.2, (q.2.map Prod.fst).Nodup

theorem alget_mem {β : Type} {m : List (String × β)} {k : String} {v : β}
    (h : alget m k = some v) : (k, v) ∈ m := by
  induction m with
  | nil => simp [alget] at h
  | cons p rest ih =>
    rw [alget_cons] at h
    cases hp : p.1 == k with
    | true =>
      rw [hp, if_pos rfl] at h
      have hk : p.1 = k := by simpa using hp
      have hv : p.2 = v := by simpa using h
      have hpv : (k, v) = p := by rw [← hk, ← hv]
      exact hpv ▸ List.mem_cons_self p rest
    | false =>
      rw [hp] at h
      simp only [Bool.false_eq_true, if_neg, not_false_iff] at h
      right
      exact ih h

theorem alget_any {β : Type} {m : List (String × β)} {k : String} {v : β}
    (h : alget m k = some v) : m.any (fun p => p.1 == k) = true := by
  have hm := alget_mem h
  simp only [List.any_eq_true]
  exact ⟨(k, v), hm, by simp⟩

theorem map_replace_id {β : Type} (m : List (String × β)) (k : String) (v : β)
    (h : ∀ q ∈ m, (q.1 == k) = false) :
    m.map (fun p => if p.1 == k then (k, v) else p) = m := by
  induction m with
  | nil => rfl
  | cons p rest ih =>
    have hp := h p (by simp)
    simp only [List.map_cons, hp, Bool.false_eq_true, if_neg, not_false_iff]
    rw [ih (fun q hq => h q (by simp [hq]))]

/-- Setting a key to the value it already holds is a no-op, for a real dict. -/
theorem aset_eq_self {β : Type} {m : List (String × β)} {k : String} {v : β}
    (hnd : (m.map Prod.fst).Nodup) (h : alget m k = some v) : aset m k v = m := by
  unfold aset
  rw [if_pos (alget_any h)]
  induction m with
  | nil => simp [alget] at h
  | cons p rest ih =>
    rw [alget_cons] at h
    simp only [List.map_cons, List.nodup_cons] at hnd
    cases hp : p.1 == k with
    | true =>
      rw [hp, if_pos rfl] at h
      have hk : p.1 = k := by simpa using hp
      have hv : p.2 = v := by simpa using h
      have hrest : ∀ q ∈ rest, (q.1 == k) = false := by
        intro q hq
        simp only [beq_eq_false_iff_ne, ne_eq]
        intro hqk
        exact hnd.1 (by rw [hk, ← hqk]; exact List.mem_map_of_mem Prod.fst hq)
      simp only [List.map_cons, hp, if_pos rfl]
      rw [map_replace_id rest k v hrest]
      rw [← hk, ← hv]
      simp
    | false =>
      rw [hp] at h
      simp only [Bool.false_eq_true, if_neg, not_false_iff] at h
      simp only [List.map_cons, hp, Bool.false_eq_true, if_neg, not_false_iff]
      rw [ih hnd.2 h]

/-- `aset` with a present key leaves the key list unchanged. -/
theorem aset_keys_present {β : Type} (m : List (String × β)) (k : String) (v : β)
    (h : m.any (fun p => p.1 == k) = true) :
    (aset m k v).map Prod.fst = m.map Prod.fst := by
  unfold aset
  rw [if_pos h, List.map_map]
  apply List.map_congr_left
  intro p _
  cases hp : p.1 == k with
  | true =>
    have hk : p.1 = k := by simpa using hp
    simp [hk]
  | false =>
    have hk : ¬ p.1 = k := by simpa using hp
    simp [hk]

theorem aset_keys_absent {β : Type} (m : List (String × β)) (k : String) (v : β)
    (h : m.any (fun p => p.1 == k) = false) :
    (aset m k v).map Prod.fst = m.map Prod.fst ++ [k] := by
  unfold aset
  rw [h]
  simp

/-- `aset` never removes a key. -/
theorem aset_any_mono {β : Type} (m : List (String × β)) (k k' : String) (v : β)
    (h : m.any (fun p => p.1 == k') = true) :
    (aset m k v).any (fun p => p.1 == k') = true := by
  cases hk : m.any (fun p => p.1 == k) with
  | true =>
    have := aset_keys_present m k v hk
    simp only [List.any_eq_true] at h ⊢
    obtain ⟨p, hp, hpk⟩ := h
    have hmem : p.1 ∈ (aset m k v).map Prod.fst := by
      rw [this]
      exact List.mem_map_of_mem Prod.fst hp
    obtain ⟨q, hq, hqk⟩ := List.mem_map.mp hmem
    exact ⟨q, hq, by rw [hqk]; exact hpk⟩
  | false =>
    have := aset_keys_absent m k v hk
    simp only [List.any_eq_true] at h ⊢
    obtain ⟨p, hp, hpk⟩ := h
    have hmem : p.1 ∈ (aset m k v).map Prod.fst := by
      rw [this]
      exact List.mem_append_left _ (List.mem_map_of_mem Prod.fst hp)
    obtain ⟨q, hq, hqk⟩ := List.mem_map.mp hmem
    exact ⟨q, hq, by rw [hqk]; exact hpk⟩

theorem alget_none_of_any_false {β : Type} {m : List (String × β)} {k : String}
    (h : m.any (fun p => p.1 == k) = false) : alget m k = none := by
  cases halget : alget m k with
  | none => rfl
  | some v => rw [alget_any halget] at h; cases h

theorem not_mem_keys_of_any_false {β : Type} {m : List (String × β)} {k : String}
    (h : m.any (fun p => p.1 == k) = false) : k ∉ m.map Prod.fst := by
  intro hmem
  obtain ⟨p, hp, hpk⟩ := List.mem_map.mp hmem
  have : m.any (fun p => p.1 == k) = true :=
    List.any_eq_true.mpr ⟨p, hp, by simp [hpk]⟩
  rw [this] at h
  cases h

theorem aset_keys_nodup {β : Type} {m : List (String × β)} (k : String) (v : β)
    (hnd : (m.map Prod.fst).Nodup) : ((aset m k v).map Prod.fst).Nodup := by
  cases hk : m.any (fun p => p.1 == k) with
  | true => rw [aset_keys_present m k v hk]; exact hnd
  | false =>
    rw [aset_keys_absent m k v hk]
    simp only [List.nodup_append, List.nodup_cons, List.not_mem_nil, not_false_iff,
      List.nodup_nil, and_true, true_and]
    refine ⟨hnd, ?_⟩
    intro x hx hxk
    simp only [List.mem_singleton] at hxk
    exact not_mem_keys_of_any_false hk (hxk ▸ hx)

/-- Every entry of `aset m k v` is an entry of `m` or is `(k, v)`. -/
theorem aset_mem {β : Type} {m : List (String × β)} {k : String} {v : β}
    {q : String × β} (h : q ∈ aset m k v) : q ∈ m ∨ q = (k, v) := by
  unfold aset at h
  cases hk : m.any (fun p => p.1 == k) with
  | true =>
    rw [hk, if_pos rfl] at h
    obtain ⟨p, hp, hpq⟩ := List.mem_map.mp h
    by_cases hc : (p.1 == k) = true
    · rw [if_pos hc] at hpq; right; exact hpq.symm
    · rw [if_neg hc] at hpq; left; exact hpq ▸ hp
  | false =>
    rw [hk] at h
    simp only [Bool.false_eq_true, if_neg, not_false_iff] at h
    rcases List.mem_append.mp h with h1 | h1
    · left; exact h1
    · right; simpa using h1

/-- The pointwise effect of one merge-loop iteration on the ledger. -/
theorem slotsOf_insertAlloc {u u2 : PUsage} {a : Alloc}
    (h : insertAlloc u a = some u2) (k r d : String) :
    slotsOf u2 k r d =
      if k = a.rtype ∧ r = a.room ∧ d = a.day then
        (if (slotsOf u a.rtype a.room a.day).contains a.slot then
          slotsOf u a.rtype a.room a.day
        else slotsOf u a.rtype a.room a.day ++ [a.slot])
      else slotsOf u k r d := by
  unfold insertAlloc at h
  cases hget : alget u a.rtype with
  | none => rw [hget] at h; cases h
  | some rd =>
    rw [hget] at h
    simp only [Option.some.injEq] at h
    have hS : slotsOf u a.rtype a.room a.day =
        (alget ((alget rd a.room).getD []) a.day).getD [] := by
      unfold slotsOf; rw [hget]; rfl
    have e1 : alget u2 a.rtype = some (aset rd a.room
        (aset ((alget rd a.room).getD []) a.day
          (if ((alget ((alget rd a.room).getD []) a.day).getD []).contains a.slot then
            (alget ((alget rd a.room).getD []) a.day).getD []
          else ((alget ((alget rd a.room).getD []) a.day).getD []) ++ [a.slot]))) := by
      rw [← h]; exact alget_aset_self u a.rtype _
    by_cases hk : k = a.rtype
    · by_cases hr : r = a.room
      · by_cases hd : d = a.day
        · rw [if_pos ⟨hk, hr, hd⟩, hS]
          unfold slotsOf
          rw [hk, hr, hd, e1]
          simp only [Option.getD_some]
          rw [alget_aset_self]
          simp only [Option.getD_some]
          rw [alget_aset_self]
          simp only [Option.getD_some]
        · rw [if_neg (fun hc => hd hc.2.2)]
          unfold slotsOf
          rw [hk, hr, e1, hget]
          simp only [Option.getD_some]
          rw [alget_aset_self]
          simp only [Option.getD_some]
          rw [alget_aset_ne _ _ _ _ hd]
      · rw [if_neg (fun hc => hr hc.2.1)]
        unfold slotsOf
        rw [hk, e1, hget]
        simp only [Option.getD_some]
        rw [alget_aset_ne _ _ _ _ hr]
    · rw [if_neg (fun hc => hk hc.1)]
      unfold slotsOf
      rw [show alget u2 k = alget u k by rw [← h]; exact alget_aset_ne _ _ _ _ hk]

theorem contains_append_one (l : List Nat) (x s : Nat) :
    (l ++ [x]).contains s = true ↔ l.contains s = true ∨ s = x := by
  rw [List.elem_iff, List.elem_iff, List.mem_append, List.mem_singleton]

/-- The pointwise effect of one iteration on `slotListed`. -/
theorem slotListed_insertAlloc {u u2 : PUsage} {a : Alloc}
    (h : insertAlloc u a = some u2) (k r d : String) (s : Nat) :
    slotListed u2 k r d s = true ↔
      slotListed u k r d s = true ∨
        (a.rtype = k ∧ a.room = r ∧ a.day = d ∧ a.slot = s) := by
  unfold slotListed
  rw [slotsOf_insertAlloc h k r d]
  by_cases hc : k = a.rtype ∧ r = a.room ∧ d = a.day
  · rw [if_pos hc]
    obtain ⟨hk, hr, hd⟩ := hc
    subst hk; subst hr; subst hd
    cases hin : (slotsOf u a.rtype a.room a.day).contains a.slot with
    | true =>
      rw [if_pos rfl]
      constructor
      · intro hs; left; exact hs
      · rintro (hs | hs)
        · exact hs
        · rw [← hs.2.2.2]; exact hin
    | false =>
      rw [if_neg (by simp)]
      rw [contains_append_one]
      constructor
      · rintro (hs | hs)
        · left; exact hs
        · right; exact ⟨rfl, rfl, rfl, hs.symm⟩
      · rintro (hs | hs)
        · left; exact hs
        · right; exact hs.2.2.2.symm
  · rw [if_neg hc]
    constructor
    · intro hs; left; exact hs
    · rintro (hs | hs)
      · exact hs
      · exact absurd ⟨hs.1.symm, hs.2.1.symm, hs.2.2.1.symm⟩ hc

/-- Cumulative effect of the merge loop on `slotListed`. -/
theorem slotListed_mergeLoop {as : List Alloc} :
    ∀ {u u2 : PUsage}, mergeLoop u as = some u2 → ∀ (k r d : String) (s : Nat),
    (slotListed u2 k r d s = true ↔
      slotListed u k r d s = true ∨
        ∃ a ∈ as, a.rtype = k ∧ a.room = r ∧ a.day = d ∧ a.slot = s) := by
  induction as with
  | nil =>
    intro u u2 h k r d s
    simp only [mergeLoop, Option.some.injEq] at h
    subst h
    simp
  | cons a rest ih =>
    intro u u2 h k r d s
    simp only [mergeLoop] at h
    cases hins : insertAlloc u a with
    | none => rw [hins] at h; cases h
    | some u3 =>
      rw [hins] at h
      rw [ih h k r d s, slotListed_insertAlloc hins k r d s]
      constructor
      · rintro ((h1 | h1) | ⟨b, hb, hbs⟩)
        · left; exact h1
        · right; exact ⟨a, by simp, h1⟩
        · right; exact ⟨b, by simp [hb], hbs⟩
      · rintro (h1 | ⟨b, hb, hbs⟩)
        · left; left; exact h1
        · rcases List.mem_cons.mp hb with hb1 | hb1
          · left; right; rw [hb1] at hbs; exact hbs
          · right; exact ⟨b, hb1, hbs⟩

/-- The merge loop keeps every per-(kind, room, day) slot list duplicate-free. -/
theorem slotsOf_nodup_mergeLoop {as : List Alloc} :
    ∀ {u u2 : PUsage}, mergeLoop u as = some u2 →
    (∀ k r d, (slotsOf u k r d).Nodup) → ∀ k r d, (slotsOf u2 k r d).Nodup := by
  induction as with
  | nil =>
    intro u u2 h hnd
    simp only [mergeLoop, Option.some.injEq] at h
    subst h
    exact hnd
  | cons a rest ih =>
    intro u u2 h hnd
    simp only [mergeLoop] at h
    cases hins : insertAlloc u a with
    | none => rw [hins] at h; cases h
    | some u3 =>
      rw [hins] at h
      refine ih h ?_
      intro k r d
      rw [slotsOf_insertAlloc hins k r d]
      by_cases hc : k = a.rtype ∧ r = a.room ∧ d = a.day
      · rw [if_pos hc]
        cases hin : (slotsOf u a.rtype a.room a.day).contains a.slot with
        | true => rw [if_pos rfl]; exact hnd _ _ _
        | false =>
          rw [if_neg (by simp)]
          have hmem : a.slot ∉ slotsOf u a.rtype a.room a.day := by
            intro hm
            have hc2 : (slotsOf u a.rtype a.room a.day).contains a.slot = true :=
              List.elem_iff.mpr hm
            rw [hc2] at hin
            cases hin
          simp only [List.nodup_append, List.nodup_cons, List.not_mem_nil,
            not_false_iff, List.nodup_nil, and_true, true_and]
          refine ⟨hnd _ _ _, ?_⟩
          intro x hx hxs
          simp only [List.mem_singleton] at hxs
          exact hmem (hxs ▸ hx)
      · rw [if_neg hc]; exact hnd _ _ _

theorem slotsOf_ensureKind (u : PUsage) (k0 k r d : String) :
    slotsOf (ensureKind u k0) k r d = slotsOf u k r d := by
  unfold ensureKind
  cases hmem : u.any (fun p => p.1 == k0) with
  | true => rw [if_pos rfl]
  | false =>
    rw [if_neg (by simp)]
    unfold slotsOf
    by_cases hk : k = k0
    · rw [hk, alget_append_one_self u k0 [] hmem,
        alget_none_of_any_false hmem]
      rfl
    · rw [alget_append_one_ne u k0 k [] hk]

theorem ensureKind_any (u : PUsage) (k0 k : String) (h : u.any (fun p => p.1 == k) = true) :
    (ensureKind u k0).any (fun p => p.1 == k) = true := by
  unfold ensureKind
  cases hmem : u.any (fun p => p.1 == k0) with
  | true => rw [if_pos rfl]; exact h
  | false =>
    rw [if_neg (by simp)]
    simp only [List.any_append]
    rw [h]
    rfl

theorem ensureKind_any_self (u : PUsage) (k0 : String) :
    (ensureKind u k0).any (fun p => p.1 == k0) = true := by
  unfold ensureKind
  cases hmem : u.any (fun p => p.1 == k0) with
  | true => rw [if_pos rfl]; exact hmem
  | false =>
    rw [if_neg (by simp)]
    simp only [List.any_append]
    simp

theorem ensureKind_of_any (u : PUsage) (k0 : String)
    (h : u.any (fun p => p.1 == k0) = true) : ensureKind u k0 = u := by
  unfold ensureKind
  rw [if_pos h]

theorem insertAlloc_any {u u2 : PUsage} {a : Alloc} (k : String)
    (h : insertAlloc u a = some u2) (hk : u.any (fun p => p.1 == k) = true) :
    u2.any (fun p => p.1 == k) = true := by
  unfold insertAlloc at h
  cases hget : alget u a.rtype with
  | none => rw [hget] at h; cases h
  | some rd =>
    rw [hget] at h
    simp only [Option.some.injEq] at h
    rw [← h]
    exact aset_any_mono u a.rtype k _ hk

theorem mergeLoop_any {as : List Alloc} :
    ∀ {u u2 : PUsage}, mergeLoop u as = some u2 → ∀ k,
      u.any (fun p => p.1 == k) = true → u2.any (fun p => p.1 == k) = true := by
  induction as with
  | nil =>
    intro u u2 h k hk
    simp only [mergeLoop, Option.some.injEq] at h
    subst h
    exact hk
  | cons a rest ih =>
    intro u u2 h k hk
    simp only [mergeLoop] at h
    cases hins : insertAlloc u a with
    | none => rw [hins] at h; cases h
    | some u3 =>
      rw [hins] at h
      exact ih h k (insertAlloc_any k hins hk)

/-- Well-formedness survives `ensureKind`. -/
theorem wf_ensureKind {u : PUsage} (k0 : String) (hwf : wfPUsage u) :
    wfPUsage (ensureKind u k0) := by
  unfold ensureKind
  cases hmem : u.any (fun p => p.1 == k0) with
  | true => rw [if_pos rfl]; exact hwf
  | false =>
    rw [if_neg (by simp)]
    obtain ⟨hkeys, hinner⟩ := hwf
    constructor
    · simp only [List.map_append, List.map_cons, List.map_nil]
      simp only [List.nodup_append, List.nodup_cons, List.not_mem_nil,
        not_false_iff, List.nodup_nil, and_true, true_and]
      refine ⟨hkeys, ?_⟩
      intro x hx hxk
      simp only [List.mem_singleton] at hxk
      exact not_mem_keys_of_any_false hmem (hxk ▸ hx)
    · intro p hp
      rcases List.mem_append.mp hp with h1 | h1
      · exact hinner p h1
      · simp only [List.mem_singleton] at h1
        subst h1
        exact ⟨List.nodup_nil, by intro q hq; cases hq⟩

/-- Well-formedness survives one merge-loop iteration. -/
theorem wf_insertAlloc {u u2 : PUsage} {a : Alloc}
    (h : insertAlloc u a = some u2) (hwf : wfPUsage u) : wfPUsage u2 := by
  unfold insertAlloc at h
  cases hget : alget u a.rtype with
  | none => rw [hget] at h; cases h
  | some rd =>
    rw [hget] at h
    simp only [Option.some.injEq] at h
    obtain ⟨hkeys, hinner⟩ := hwf
    have hrd := hinner (a.rtype, rd) (alget_mem hget)
    -- the day-slot dict actually read (or `{}` when the room is new)
    have hdm : ∀ q ∈ (aset rd a.room
        (aset ((alget rd a.room).getD []) a.day
          (if ((alget ((alget rd a.room).getD []) a.day).getD []).contains a.slot then
            (alget ((alget rd a.room).getD []) a.day).getD []
          else ((alget ((alget rd a.room).getD []) a.day).getD []) ++ [a.slot]))),
        (q.2.map Prod.fst).Nodup := by
      intro q hq
      rcases aset_mem hq with h1 | h1
      · exact hrd.2 q h1
      · subst h1
        simp only
        apply aset_keys_nodup
        cases hroom : alget rd a.room with
        | none => simp
        | some dm => exact hrd.2 (a.room, dm) (alget_mem hroom)
    constructor
    · rw [← h]
      cases hany : u.any (fun p => p.1 == a.rtype) with
      | true => rw [aset_keys_present u a.rtype _ hany]; exact hkeys
      | false => rw [alget_none_of_any_false hany] at hget; cases hget
    · intro p hp
      rw [← h] at hp
      rcases aset_mem hp with h1 | h1
      · exact hinner p h1
      · subst h1
        refine ⟨?_, hdm⟩
        simp only
        apply aset_keys_nodup
        exact hrd.1

/-- Inserting an allocation that is already listed is a no-op (the core of
"duplicate inserts are no-ops"). -/
theorem insertAlloc_id {u : PUsage} {a : Alloc} (hwf : wfPUsage u)
    (hl : slotListed u a.rtype a.room a.day a.slot = true) :
    insertAlloc u a = some u := by
  unfold slotListed slotsOf at hl
  cases hget : alget u a.rtype with
  | none => rw [hget] at hl; simp [alget_nil] at hl
  | some rd =>
    rw [hget] at hl
    simp only [Option.getD_some] at hl
    cases hroom : alget rd a.room with
    | none => rw [hroom] at hl; simp [alget_nil] at hl
    | some dm =>
      rw [hroom] at hl
      simp only [Option.getD_some] at hl
      cases hday : alget dm a.day with
      | none => rw [hday] at hl; simp at hl
      | some slots =>
        rw [hday] at hl
        simp only [Option.getD_some] at hl
        obtain ⟨hkeys, hinner⟩ := hwf
        have hrd := hinner (a.rtype, rd) (alget_mem hget)
        unfold insertAlloc
        simp only [hget, hroom, hday, Option.getD_some, hl, if_true]
        rw [aset_eq_self (hrd.2 (a.room, dm) (alget_mem hroom)) hday]
        rw [aset_eq_self hrd.1 hroom]
        rw [aset_eq_self hkeys hget]

/-- Running the merge loop over allocations that are all already listed
changes nothing. -/
theorem mergeLoop_id {as : List Alloc} :
    ∀ {u : PUsage}, wfPUsage u →
      (∀ a ∈ as, slotListed u a.rtype a.room a.day a.slot = true) →
      mergeLoop u as = some u := by
  induction as with
  | nil => intro u _ _; rfl
  | cons a rest ih =>
    intro u hwf hall
    simp only [mergeLoop]
    rw [insertAlloc_id hwf (hall a (by simp))]
    exact ih hwf (fun b hb => hall b (by simp [hb]))

/-- Spec for `merge_usage_data` (C9): on a well-formed ledger, (a) a slot is
listed under (kind, room, day) in the result iff it was listed in the input
or occurs there in the new allocations; (b) per-(kind, room, day) slot lists
stay duplicate-free; (c) merging the same allocation list again returns the
same ledger unchanged. -/
theorem merge_usage_data_spec (u : PUsage) (as : List Alloc) (u2 : PUsage)
    (hwf : wfPUsage u) (h : merge_usage_data u as = some u2) :
    (∀ (k r d : String) (s : Nat),
      slotListed u2 k r d s = true ↔
        slotListed u k r d s = true ∨
          ∃ a ∈ as, a.rtype = k ∧ a.room = r ∧ a.day = d ∧ a.slot = s) ∧
    ((∀ k r d, (slotsOf u k r d).Nodup) → ∀ k r d, (slotsOf u2 k r d).Nodup) ∧
    merge_usage_data u2 as = some u2 := by
  unfold merge_usage_data at h
  have hbase : ∀ (k r d : String),
      slotsOf (ensureKind (ensureKind u "theory") "lab") k r d = slotsOf u k r d := by
    intro k r d
    rw [slotsOf_ensureKind, slotsOf_ensureKind]
  have hlisted : ∀ (k r d : String) (s : Nat),
      slotListed u2 k r d s = true ↔
        slotListed u k r d s = true ∨
          ∃ a ∈ as, a.rtype = k ∧ a.room = r ∧ a.day = d ∧ a.slot = s := by
    intro k r d s
    rw [slotListed_mergeLoop h k r d s]
    unfold slotListed
    rw [hbase]
  have hwf2 : wfPUsage u2 := by
    have hw1 := wf_ensureKind "lab" (wf_ensureKind "theory" hwf)
    clear hbase hlisted
    revert h hw1
    generalize ensureKind (ensureKind u "theory") "lab" = u0
    intro h hw1
    induction as generalizing u0 with
    | nil =>
      simp only [mergeLoop, Option.some.injEq] at h
      subst h
      exact hw1
    | cons a rest ih =>
      simp only [mergeLoop] at h
      cases hins : insertAlloc u0 a with
      | none => rw [hins] at h; cases h
      | some u3 =>
        rw [hins] at h
        exact ih u3 h (wf_insertAlloc hins hw1)
  refine ⟨hlisted, ?_, ?_⟩
  · intro hnd
    refine slotsOf_nodup_mergeLoop h ?_
    intro k r d
    rw [hbase]
    exact hnd k r d
  · unfold merge_usage_data
    have hth : u2.any (fun p => p.1 == "theory") = true :=
      mergeLoop_any h _ (ensureKind_any _ "lab" _ (ensureKind_any_self u "theory"))
    have hlb : u2.any (fun p => p.1 == "lab") = true :=
      mergeLoop_any h _ (ensureKind_any_self _ "lab")
    rw [ensureKind_of_any _ _ hth, ensureKind_of_any _ _ hlb]
    refine mergeLoop_id hwf2 ?_
    intro a ha
    rw [hlisted]
    right
    exact ⟨a, ha, rfl, rfl, rfl, rfl⟩

/-- A tiny concrete ledger for the merge witnesses. -/
def mergeWitnessU : PUsage := [("theory", [("R1", [("Monday", [0])])]), ("lab", [])]

def mergeWitnessAllocs : List Alloc := [⟨"theory", "R1", "Monday", 1, "S1A1-CS101"⟩]

def mergeWitnessU2 : PUsage := [("theory", [("R1", [("Monday", [0, 1])])]), ("lab", [])]

/-- Witness for `merge_usage_data_spec` on a concrete ledger and allocation. -/
theorem merge_usage_data_spec_witness :
    wfPUsage mergeWitnessU ∧
    ((∀ (k r d : String) (s : Nat),
      slotListed mergeWitnessU2 k r d s = true ↔
        slotListed mergeWitnessU k r d s = true ∨
          ∃ a ∈ mergeWitnessAllocs,
            a.rtype = k ∧ a.room = r ∧ a.day = d ∧ a.slot = s) ∧
    ((∀ k r d, (slotsOf mergeWitnessU k r d).Nodup) →
      ∀ k r d, (slotsOf mergeWitnessU2 k r d).Nodup) ∧
    merge_usage_data mergeWitnessU2 mergeWitnessAllocs = some mergeWitnessU2) :=
  ⟨by unfold wfPUsage; decide,
   merge_usage_data_spec mergeWitnessU mergeWitnessAllocs mergeWitnessU2
     (by unfold wfPUsage; decide) (by decide)⟩

/-! ## Heap-level model of `merge_usage_data` (frame property, C10)

To state that `merge_usage_data` never mutates its `existing_usage` argument
we model the mutable part of the Python objects: the innermost slot lists are
heap cells (`usage[rtype][room][day].append(slot)` mutates in place), while
the dict spine is handled by functional update of the *copy* the function
builds.  `copy.deepcopy` allocates fresh cells for every slot list.  The
frame theorem says: every cell reachable from the input ledger holds the same
list after the call as before. -/

structure Heap where
  next : Nat
  mem : Nat → List Nat

def halloc (xs : List Nat) (h : Heap) : Nat × Heap :=
  (h.next, ⟨h.next + 1, fun i => if i = h.next then xs else h.mem i⟩)

def happend (c : Nat) (x : Nat) (h : Heap) : Heap :=
  ⟨h.next, fun i => if i = c then h.mem i ++ [x] else h.mem i⟩

abbrev HDaySlots := List (String × Nat)
abbrev HRoomDays := List (String × HDaySlots)
abbrev HUsage := List (String × HRoomDays)

/-- `copy.deepcopy` of one day→slot-list dict: fresh cells with equal contents. -/
def copyDays : HDaySlots → Heap → HDaySlots × Heap
  | [], h => ([], h)
  | (d, c) :: rest, h =>
    let a := halloc (h.mem c) h
    let r := copyDays rest a.2
    ((d, a.1) :: r.1, r.2)

def copyRooms : HRoomDays → Heap → HRoomDays × Heap
  | [], h => ([], h)
  | (rm, dm) :: rest, h =>
    let a := copyDays dm h
    let r := copyRooms rest a.2
    ((rm, a.1) :: r.1, r.2)

def copyUsage : HUsage → Heap → HUsage × Heap
  | [], h => ([], h)
  | (k, rd) :: rest, h =>
    let a := copyRooms rd h
    let r := copyUsage rest a.2
    ((k, a.1) :: r.1, r.2)

def ensureKindH (u : HUsage) (k : String) : HUsage :=
  if u.any (fun p => p.1 == k) then u else u ++ [(k, [])]

/-- One merge-loop iteration at the heap level.  A present (room, day) slot
list is mutated in place (`happend`); a missing room or day allocates a fresh
list and threads the dict update through the ledger structure. -/
def insertAllocH (u : HUsage) (a : Alloc) (h : Heap) : Option HUsage × Heap :=
  match alget u a.rtype with
  | none => (none, h)
  | some rd =>
    let dm0 := (alget rd a.room).getD []
    match alget dm0 a.day with
    | some c =>
      if (h.mem c).contains a.slot then (some u, h)
      else (some u, happend c a.slot h)
    | none =>
      let a2 := halloc [] h
      let h2 := happend a2.1 a.slot a2.2
      (some (aset u a.rtype (aset rd a.room (aset dm0 a.day a2.1))), h2)

def mergeLoopH : HUsage → List Alloc → Heap → Option HUsage × Heap
  | u, [], h => (some u, h)
  | u, a :: rest, h =>
    match insertAllocH u a h with
    | (none, h2) => (none, h2)
    | (some u2, h2) => mergeLoopH u2 rest h2

def merge_usage_dataH (existing : HUsage) (allocs : List Alloc) (h : Heap) :
    Option HUsage × Heap :=
  let c := copyUsage existing h
  mergeLoopH (ensureKindH (ensureKindH c.1 "theory") "lab") allocs c.2

/-- All heap cells reachable from a ledger structure. -/
def cellsOfDays (dm : HDaySlots) : List Nat := dm.map Prod.snd

def cellsOfRooms (rd : HRoomDays) : List Nat :=
  rd.flatMap (fun q => cellsOfDays q.2)

def cellsOfUsage (u : HUsage) : List Nat :=
  u.flatMap (fun p => cellsOfRooms p.2)

theorem cellsOfRooms_of_alget {u : HUsage} {k : String} {rd : HRoomDays}
    (h : alget u k = some rd) : ∀ c ∈ cellsOfRooms rd, c ∈ cellsOfUsage u := by
  intro c hc
  unfold cellsOfUsage
  exact List.mem_flatMap.mpr ⟨(k, rd), alget_mem h, hc⟩

theorem cellsOfDays_of_alget {rd : HRoomDays} {k : String} {dm : HDaySlots}
    (h : alget rd k = some dm) : ∀ c ∈ cellsOfDays dm, c ∈ cellsOfRooms rd := by
  intro c hc
  unfold cellsOfRooms
  exact List.mem_flatMap.mpr ⟨(k, dm), alget_mem h, hc⟩

theorem cellsOfDays_aset {dm : HDaySlots} {k : String} {v : Nat} :
    ∀ c ∈ cellsOfDays (aset dm k v), c ∈ cellsOfDays dm ∨ c = v := by
  intro c hc
  obtain ⟨q, hq, hqc⟩ := List.mem_map.mp hc
  rcases aset_mem hq with h1 | h1
  · left; exact hqc ▸ List.mem_map_of_mem Prod.snd h1
  · right; rw [← hqc, h1]

theorem cellsOfRooms_aset {rd : HRoomDays} {k : String} {v : HDaySlots} :
    ∀ c ∈ cellsOfRooms (aset rd k v),
      c ∈ cellsOfRooms rd ∨ c ∈ cellsOfDays v := by
  intro c hc
  obtain ⟨q, hq, hqc⟩ := List.mem_flatMap.mp hc
  rcases aset_mem hq with h1 | h1
  · left; exact List.mem_flatMap.mpr ⟨q, h1, hqc⟩
  · right; rw [h1] at hqc; exact hqc

theorem cellsOfUsage_aset {u : HUsage} {k : String} {v : HRoomDays} :
    ∀ c ∈ cellsOfUsage (aset u k v),
      c ∈ cellsOfUsage u ∨ c ∈ cellsOfRooms v := by
  intro c hc
  obtain ⟨q, hq, hqc⟩ := List.mem_flatMap.mp hc
  rcases aset_mem hq with h1 | h1
  · left; exact List.mem_flatMap.mpr ⟨q, h1, hqc⟩
  · right; rw [h1] at hqc; exact hqc

theorem cellsOfUsage_ensureKindH (u : HUsage) (k : String) :
    cellsOfUsage (ensureKindH u k) = cellsOfUsage u := by
  unfold ensureKindH
  cases hmem : u.any (fun p => p.1 == k) with
  | true => rw [if_pos rfl]
  | false =>
    rw [if_neg (by simp)]
    unfold cellsOfUsage
    rw [List.flatMap_append]
    simp [cellsOfRooms]

theorem copyDays_spec (dm : HDaySlots) (h : Heap) :
    h.next ≤ (copyDays dm h).2.next ∧
    (∀ c < h.next, (copyDays dm h).2.mem c = h.mem c) ∧
    (∀ c ∈ cellsOfDays (copyDays dm h).1, h.next ≤ c) := by
  induction dm generalizing h with
  | nil => exact ⟨Nat.le_refl _, fun c _ => rfl, fun c hc => by cases hc⟩
  | cons p rest ih =>
    obtain ⟨d, c0⟩ := p
    simp only [copyDays]
    obtain ⟨ih1, ih2, ih3⟩ := ih (halloc (h.mem c0) h).2
    have hnext : (halloc (h.mem c0) h).2.next = h.next + 1 := rfl
    refine ⟨by omega, ?_, ?_⟩
    · intro c hc
      rw [ih2 c (by omega)]
      simp only [halloc]
      rw [if_neg (by omega)]
    · intro c hc
      simp only [cellsOfDays, List.map_cons, List.mem_cons] at hc
      rcases hc with hc | hc
      · simp only [halloc] at hc
        omega
      · have := ih3 c hc
        omega

theorem copyRooms_spec (rd : HRoomDays) (h : Heap) :
    h.next ≤ (copyRooms rd h).2.next ∧
    (∀ c < h.next, (copyRooms rd h).2.mem c = h.mem c) ∧
    (∀ c ∈ cellsOfRooms (copyRooms rd h).1, h.next ≤ c) := by
  induction rd generalizing h with
  | nil => exact ⟨Nat.le_refl _, fun c _ => rfl, fun c hc => by cases hc⟩
  | cons p rest ih =>
    obtain ⟨rm, dm⟩ := p
    simp only [copyRooms]
    obtain ⟨hd1, hd2, hd3⟩ := copyDays_spec dm h
    obtain ⟨ih1, ih2, ih3⟩ := ih (copyDays dm h).2
    refine ⟨by omega, ?_, ?_⟩
    · intro c hc
      rw [ih2 c (by omega), hd2 c hc]
    · intro c hc
      simp only [cellsOfRooms, List.flatMap_cons, List.mem_append] at hc
      rcases hc with hc | hc
      · exact hd3 c hc
      · have := ih3 c hc
        omega

theorem copyUsage_spec (u : HUsage) (h : Heap) :
    h.next ≤ (copyUsage u h).2.next ∧
    (∀ c < h.next, (copyUsage u h).2.mem c = h.mem c) ∧
    (∀ c ∈ cellsOfUsage (copyUsage u h).1, h.next ≤ c) := by
  induction u generalizing h with
  | nil => exact ⟨Nat.le_refl _, fun c _ => rfl, fun c hc => by cases hc⟩
  | cons p rest ih =>
    obtain ⟨k, rd⟩ := p
    simp only [copyUsage]
    obtain ⟨hr1, hr2, hr3⟩ := copyRooms_spec rd h
    obtain ⟨ih1, ih2, ih3⟩ := ih (copyRooms rd h).2
    refine ⟨by omega, ?_, ?_⟩
    · intro c hc
      rw [ih2 c (by omega), hr2 c hc]
    · intro c hc
      simp only [cellsOfUsage, List.flatMap_cons, List.mem_append] at hc
      rcases hc with hc | hc
      · exact hr3 c hc
      · have := ih3 c hc
        omega

/-- One heap-level merge iteration only writes to cells at or above `n0`,
provided every cell of the current ledger structure is at or above `n0`. -/
theorem insertAllocH_frame {n0 : Nat} {u : HUsage} {a : Alloc} {h : Heap}
    (hcells : ∀ c ∈ cellsOfUsage u, n0 ≤ c) (hnext : n0 ≤ h.next) :
    (∀ c < n0, (insertAllocH u a h).2.mem c = h.mem c) ∧
    n0 ≤ (insertAllocH u a h).2.next ∧
    (∀ u2, (insertAllocH u a h).1 = some u2 → ∀ c ∈ cellsOfUsage u2, n0 ≤ c) := by
  unfold insertAllocH
  cases hget : alget u a.rtype with
  | none => exact ⟨fun c _ => rfl, hnext, fun u2 h2 => by cases h2⟩
  | some rd =>
    dsimp only
    have hrd : ∀ c ∈ cellsOfRooms rd, n0 ≤ c :=
      fun c hc => hcells c (cellsOfRooms_of_alget hget c hc)
    have hdm : ∀ c ∈ cellsOfDays ((alget rd a.room).getD []), n0 ≤ c := by
      cases hroom : alget rd a.room with
      | none => intro c hc; cases hc
      | some dm =>
        intro c hc
        exact hrd c (cellsOfDays_of_alget hroom c (by simpa using hc))
    cases hday : alget ((alget rd a.room).getD []) a.day with
    | some c0 =>
      dsimp only
      have hc0 : n0 ≤ c0 := hdm c0 (by
        unfold cellsOfDays
        exact List.mem_map_of_mem Prod.snd (alget_mem hday))
      cases hin : (h.mem c0).contains a.slot with
      | true =>
        rw [if_pos rfl]
        exact ⟨fun c _ => rfl, hnext, fun u2 h2 => by
          simp only [Option.some.injEq] at h2
          subst h2
          exact hcells⟩
      | false =>
        rw [if_neg (by simp)]
        refine ⟨?_, hnext, fun u2 h2 => by
          simp only [Option.some.injEq] at h2
          subst h2
          exact hcells⟩
        intro c hc
        simp only [happend]
        rw [if_neg (by omega)]
    | none =>
      dsimp only
      refine ⟨?_, ?_, ?_⟩
      · intro c hc
        simp only [happend, halloc]
        rw [if_neg (by omega), if_neg (by omega)]
      · simp only [happend, halloc]
        omega
      · intro u2 h2 c hc
        simp only [Option.some.injEq] at h2
        subst h2
        rcases cellsOfUsage_aset c hc with h3 | h3
        · exact hcells c h3
        · rcases cellsOfRooms_aset c h3 with h4 | h4
          · exact hrd c h4
          · rcases cellsOfDays_aset c h4 with h5 | h5
            · exact hdm c h5
            · simp only [halloc] at h5
              omega

/-- The heap-level merge loop only writes at or above `n0`. -/
theorem mergeLoopH_frame {as : List Alloc} :
    ∀ {n0 : Nat} {u : HUsage} {h : Heap},
      (∀ c ∈ cellsOfUsage u, n0 ≤ c) → n0 ≤ h.next →
      ∀ c < n0, (mergeLoopH u as h).2.mem c = h.mem c := by
  induction as with
  | nil => intro n0 u h _ _ c _; rfl
  | cons a rest ih =>
    intro n0 u h hcells hnext c hc
    obtain ⟨hf1, hf2, hf3⟩ := @insertAllocH_frame n0 u a h hcells hnext
    simp only [mergeLoopH]
    cases hins : insertAllocH u a h with
    | mk o h2 =>
      cases o with
      | none =>
        simp only
        rw [show h2 = (insertAllocH u a h).2 by rw [hins]]
        exact hf1 c hc
      | some u2 =>
        simp only
        have e2 : h2 = (insertAllocH u a h).2 := by rw [hins]
        have eu : (insertAllocH u a h).1 = some u2 := by rw [hins]
        rw [ih (hf3 u2 eu) (e2 ▸ hf2) c hc, e2, hf1 c hc]

/-- C10: `merge_usage_data` never mutates its `existing_usage` argument.
Every heap cell reachable from the input ledger holds the same slot list
after the call as before: the result is built on the deep copy, so the
caller's ledger survives a hierarchical merge unchanged. -/
theorem merge_usage_dataH_frame (u : HUsage) (as : List Alloc) (h : Heap)
    (hvalid : ∀ c ∈ cellsOfUsage u, c < h.next) :
    ∀ c ∈ cellsOfUsage u, (merge_usage_dataH u as h).2.mem c = h.mem c := by
  intro c hc
  unfold merge_usage_dataH
  dsimp only
  obtain ⟨hc1, hc2, hc3⟩ := copyUsage_spec u h
  have hloop := @mergeLoopH_frame as h.next
    (ensureKindH (ensureKindH (copyUsage u h).1 "theory") "lab")
    ((copyUsage u h).2)
    (by rw [cellsOfUsage_ensureKindH, cellsOfUsage_ensureKindH]; exact hc3)
    hc1 c (hvalid c hc)
  rw [hloop, hc2 c (hvalid c hc)]

def heapWitnessU : HUsage := [("theory", [("R1", [("Monday", 0)])]), ("lab", [])]

def heapWitness : Heap := ⟨1, fun i => if i = 0 then [2] else []⟩

def heapWitnessAllocs : List Alloc :=
  [⟨"theory", "R1", "Monday", 4, "S1A1-CS101"⟩, ⟨"lab", "L1", "Tuesday", 0, "S1A1-PH100"⟩]

/-- Witness for `merge_usage_dataH_frame` on a concrete heap and ledger. -/
theorem merge_usage_dataH_frame_witness :
    (∀ c ∈ cellsOfUsage heapWitnessU, c < heapWitness.next) ∧
    (∀ c ∈ cellsOfUsage heapWitnessU,
      (merge_usage_dataH heapWitnessU heapWitnessAllocs heapWitness).2.mem c =
        heapWitness.mem c) :=
  ⟨by decide,
   merge_usage_dataH_frame heapWitnessU heapWitnessAllocs heapWitness (by decide)⟩

/-! ## Elective CP model (`schedule_electives`, scheduling/electives_solver.py)

The (room, day, slot) combinations offered to the model (`theory_combos`,
`lab_combos`), the decision variables, the posted constraints as predicates
over a valuation, and the extraction of `schedule_map`/`new_allocations`.
Theory combos skip only (day="Friday", ts=3) and already-used triples; lab
combos skip only used triples. -/

structure Elective where
  code : String
  sections_count : Nat
  can_theory : Bool
  can_lab : Bool
deriving DecidableEq, Repr

/-- The chained read `usage_data[kind].get(room, {}).get(day, [])`. -/
def usedSlots (rd : RoomDays) (r d : String) : List Nat :=
  (alget ((alget rd r).getD []) d).getD []

structure ElecInput where
  electives : List Elective
  usageTheory : RoomDays
  usageLab : RoomDays
  days : List String
  theorySlots : List Nat
  labSlots : List Nat
  theoryRooms : List String
  labRooms : List String
  theory_needed : Nat
  lab_needed : Nat

def theory_combos (E : ElecInput) : List (String × String × Nat) :=
  E.theoryRooms.flatMap (fun r => E.days.flatMap (fun d =>
    E.theorySlots.filterMap (fun ts =>
      if d == "Friday" && ts == 3 then none
      else if (usedSlots E.usageTheory r d).contains ts then none
      else some (r, d, ts))))

def lab_combos (E : ElecInput) : List (String × String × Nat) :=
  E.labRooms.flatMap (fun r => E.days.flatMap (fun d =>
    E.labSlots.filterMap (fun ls =>
      if (usedSlots E.usageLab r d).contains ls then none
      else some (r, d, ls))))

/-- A decision-variable key `(e_code, idx, "theory"|"lab", room, day, slot)`. -/
structure EKey where
  code : String
  idx : Nat
  kind : String
  room : String
  day : String
  slot : Nat
deriving DecidableEq, Repr

/-- A valuation of the elective model's variables. -/
structure EVal where
  a : EKey → Bool
  ct : String → Nat → Bool
  dayA : String → Nat → String → Bool

def b2n (b : Bool) : Nat := if b then 1 else 0

/-- `choose_theory` forcing: `model.Add(choose_var == 0)` when not
`can_theory`, `model.Add(choose_var == 1)` when not `can_lab`. -/
def electModeOk (E : ElecInput) (v : EVal) : Prop :=
  ∀ e ∈ E.electives, ∀ idx < e.sections_count,
    (e.can_theory = false → v.ct e.code idx = false) ∧
    (e.can_lab = false → v.ct e.code idx = true)

/-- The two cardinality constraints:
`sum(all_th_vars) == theory_needed * choose_theory` and
`sum(all_lb_vars) == lab_needed * (1 - choose_theory)`. -/
def electCountOk (E : ElecInput) (v : EVal) : Prop :=
  ∀ e ∈ E.electives, ∀ idx < e.sections_count,
    (theory_combos E).countP
        (fun c => v.a ⟨e.code, idx, "theory", c.1, c.2.1, c.2.2⟩) =
      E.theory_needed * b2n (v.ct e.code idx) ∧
    (lab_combos E).countP
        (fun c => v.a ⟨e.code, idx, "lab", c.1, c.2.1, c.2.2⟩) =
      E.lab_needed * (1 - b2n (v.ct e.code idx))

/-- Extraction: the `assigned_slots` list gathered for `(e_code, idx)`. -/
def assignedSlots (E : ElecInput) (v : EVal) (code : String) (idx : Nat) :
    List (String × String × String × Nat) :=
  (theory_combos E).filterMap (fun c =>
    if v.a ⟨code, idx, "theory", c.1, c.2.1, c.2.2⟩ then
      some ("theory", c.1, c.2.1, c.2.2)
    else none) ++
  (lab_combos E).filterMap (fun c =>
    if v.a ⟨code, idx, "lab", c.1, c.2.1, c.2.2⟩ then
      some ("lab", c.1, c.2.1, c.2.2)
    else none)

/-- Extraction: the `new_allocations` list of `schedule_electives`. -/
def electiveAllocations (E : ElecInput) (v : EVal) : List Alloc :=
  E.electives.flatMap (fun e => (List.range e.sections_count).flatMap (fun idx =>
    (assignedSlots E v e.code idx).map (fun s =>
      ⟨s.1, s.2.1, s.2.2.1, s.2.2.2,
        "Elective-" ++ e.code ++ "-A" ++ toString (idx + 1)⟩)))

/-- How many of the slots assigned to one elective section are of `kind`. -/
def electKindCount (E : ElecInput) (v : EVal) (code : String) (idx : Nat)
    (kind : String) : Nat :=
  (assignedSlots E v code idx).countP (fun s => s.1 == kind)

theorem filterMap_if_countP {α β : Type} (l : List α) (p : α → Bool) (f : α → β)
    (q : β → Bool) :
    (l.filterMap (fun x => if p x then some (f x) else none)).countP q =
      l.countP (fun x => p x && q (f x)) := by
  induction l with
  | nil => rfl
  | cons x rest ih =>
    cases hp : p x with
    | true =>
      cases hq : q (f x) with
      | true =>
        simp only [List.filterMap_cons, hp, if_true, List.countP_cons, hq,
          Bool.and_true, if_pos rfl]
        omega
      | false =>
        simp only [List.filterMap_cons, hp, if_true, List.countP_cons, hq,
          Bool.and_false]
        simpa using ih
    | false =>
      simp only [List.filterMap_cons, hp, Bool.false_eq_true, if_neg,
        not_false_iff, List.countP_cons, Bool.false_and]
      simpa using ih

theorem countP_false_of_all {α : Type} (l : List α) (q : α → Bool)
    (h : ∀ x ∈ l, q x = false) : l.countP q = 0 := by
  induction l with
  | nil => rfl
  | cons x rest ih =>
    rw [List.countP_cons, h x (by simp)]
    simp only [Bool.false_eq_true, if_neg, not_false_iff, Nat.add_zero]
    exact ih (fun y hy => h y (by simp [hy]))

/-- C5: every elective section realises exactly one of the two modes: either
exactly `theory_needed` theory slots and no lab slot, or exactly `lab_needed`
lab slots and no theory slot; `can_theory = false` forces the lab mode and
`can_lab = false` forces the theory mode. -/
theorem schedule_electives_modes (E : ElecInput) (v : EVal)
    (hmode : electModeOk E v) (hcount : electCountOk E v) :
    ∀ e ∈ E.electives, ∀ idx < e.sections_count,
      ((electKindCount E v e.code idx "theory" = E.theory_needed ∧
        electKindCount E v e.code idx "lab" = 0) ∨
       (electKindCount E v e.code idx "theory" = 0 ∧
        electKindCount E v e.code idx "lab" = E.lab_needed)) ∧
      (e.can_theory = false →
        electKindCount E v e.code idx "theory" = 0 ∧
        electKindCount E v e.code idx "lab" = E.lab_needed) ∧
      (e.can_lab = false →
        electKindCount E v e.code idx "theory" = E.theory_needed ∧
        electKindCount E v e.code idx "lab" = 0) := by
  intro e he idx hidx
  obtain ⟨hth, hlb⟩ := hcount e he idx hidx
  obtain ⟨hmt, hml⟩ := hmode e he idx hidx
  have hthc : electKindCount E v e.code idx "theory" =
      E.theory_needed * b2n (v.ct e.code idx) := by
    unfold electKindCount assignedSlots
    rw [List.countP_append, filterMap_if_countP, filterMap_if_countP]
    have h1 : (theory_combos E).countP
        (fun c => v.a ⟨e.code, idx, "theory", c.1, c.2.1, c.2.2⟩ &&
          (("theory", c.1, c.2.1, c.2.2).1 == "theory")) =
        (theory_combos E).countP
        (fun c => v.a ⟨e.code, idx, "theory", c.1, c.2.1, c.2.2⟩) := by
      apply List.countP_congr
      intro c _
      simp
    have h2 : (lab_combos E).countP
        (fun c => v.a ⟨e.code, idx, "lab", c.1, c.2.1, c.2.2⟩ &&
          (("lab", c.1, c.2.1, c.2.2).1 == "theory")) = 0 := by
      apply countP_false_of_all
      intro c _
      simp
    rw [h1, h2, hth]
    omega
  have hlbc : electKindCount E v e.code idx "lab" =
      E.lab_needed * (1 - b2n (v.ct e.code idx)) := by
    unfold electKindCount assignedSlots
    rw [List.countP_append, filterMap_if_countP, filterMap_if_countP]
    have h1 : (theory_combos E).countP
        (fun c => v.a ⟨e.code, idx, "theory", c.1, c.2.1, c.2.2⟩ &&
          (("theory", c.1, c.2.1, c.2.2).1 == "lab")) = 0 := by
      apply countP_false_of_all
      intro c _
      simp
    have h2 : (lab_combos E).countP
        (fun c => v.a ⟨e.code, idx, "lab", c.1, c.2.1, c.2.2⟩ &&
          (("lab", c.1, c.2.1, c.2.2).1 == "lab")) =
        (lab_combos E).countP
        (fun c => v.a ⟨e.code, idx, "lab", c.1, c.2.1, c.2.2⟩) := by
      apply List.countP_congr
      intro c _
      simp
    rw [h1, h2, hlb]
    omega
  cases hct : v.ct e.code idx with
  | true =>
    rw [hct] at hthc hlbc
    simp only [b2n, if_true, Nat.mul_one, Nat.sub_self, Nat.mul_zero] at hthc hlbc
    refine ⟨Or.inl ⟨hthc, hlbc⟩, ?_, ?_⟩
    · intro hcf
      rw [hmt hcf] at hct
      cases hct
    · intro _
      exact ⟨hthc, hlbc⟩
  | false =>
    rw [hct] at hthc hlbc
    simp only [b2n, Bool.false_eq_true, if_neg, not_false_iff, Nat.mul_zero,
      Nat.sub_zero, Nat.mul_one] at hthc hlbc
    refine ⟨Or.inr ⟨hthc, hlbc⟩, ?_, ?_⟩
    · intro _
      exact ⟨hthc, hlbc⟩
    · intro hcf
      rw [hml hcf] at hct
      cases hct

def elecWitnessInput : ElecInput :=
  { electives := [⟨"E1", 1, true, false⟩]
    usageTheory := []
    usageLab := []
    days := ["Monday", "Wednesday"]
    theorySlots := [0]
    labSlots := [0]
    theoryRooms := ["R1"]
    labRooms := ["L1"]
    theory_needed := 2
    lab_needed := 1 }

def elecWitnessVal : EVal :=
  { a := fun k =>
      decide (k = ⟨"E1", 0, "theory", "R1", "Monday", 0⟩) ||
      decide (k = ⟨"E1", 0, "theory", "R1", "Wednesday", 0⟩)
    ct := fun _ _ => true
    dayA := fun _ _ _ => false }

/-- Witness for `schedule_electives_modes`: a theory-only elective gets
exactly 2 theory slots and no lab slot. -/
theorem schedule_electives_modes_witness :
    electKindCount elecWitnessInput elecWitnessVal "E1" 0 "theory" = 2 ∧
    electKindCount elecWitnessInput elecWitnessVal "E1" 0 "lab" = 0 := by
  have h := schedule_electives_modes elecWitnessInput elecWitnessVal
    (by unfold electModeOk; decide) (by unfold electCountOk; decide)
    ⟨"E1", 1, true, false⟩ (by decide) 0 (by decide)
  exact h.2.2 (by decide)

/-! ## Main CP model (`schedule_timetable`, scheduling/solver.py)

The embedding follows the phases of the Python function:
  3) the pre-solve capacity check (`capacityFailure`),
  4) section building,
  5)/6) which decision variables exist (`varCreated`, `assigned_cohort_sec`
     modelled by `TVal.cohortA`),
  7) exact-demand / distinct-day constraints (`timesNeededOk`, `dayLinkOk`),
  8) room mutexes (`theoryRoomMutexOk`, `labRoomMutexOk`),
  12) the `noClassesAfterHour` clamp (`noClassesOk`),
  14) result extraction (`normalWrites`, `cohortWrites`, `schedule_map`,
     `new_allocations`).
The solve itself is an arbitrary valuation `TVal`; a non-`None` Python result
corresponds to a valuation satisfying every posted constraint. -/

/-- Python `str.strip()`: drop whitespace from both ends (an executable
equivalent of `String.trim`). -/
def pyStrip (s : String) : String :=
  String.mk (((s.data.dropWhile Char.isWhitespace).reverse.dropWhile
    Char.isWhitespace).reverse)

/-- One course tuple `(code, cname, is_lab, times_needed, ...)`. -/
structure Course where
  code : String
  cname : String
  is_lab : Bool
  times_needed : Nat
deriving DecidableEq, Repr

/-- One cohort offering: `{"cohort_section", "capacity", "day_time_list",
optional "cohort_room"}`. -/
structure CohortSec where
  name : String
  capacity : Nat
  dayTimeList : List (String × Nat)
  room : Option String
deriving DecidableEq, Repr

structure SolverInput where
  selected : List Nat
  courses : Nat → List Course
  sectionSizes : Nat → Nat
  usageTheory : RoomDays
  usageLab : RoomDays
  days : List String
  theorySlots : List Nat
  labSlots : List Nat
  labOverlap : List (Nat × List Nat)
  theoryRooms : List String
  labRooms : List String
  specialLabRooms : List (String × List String)
  sectionSize : Nat
  programCode : String
  cohortMap : List ((Nat × String) × List CohortSec)
  enableCohort : Bool
  maxHoursPerDay : Nat
  workingDaysPerWeek : Nat
  minGapMinutes : Nat
  noClassesAfterHour : Option Int

def cmget (m : List ((Nat × String) × List CohortSec)) (k : Nat × String) :
    Option (List CohortSec) :=
  (m.find? (fun p => decide (p.1 = k))).map Prod.snd

/-- `all_special_labs`: every special-lab room name, stripped. -/
def all_special_labs (I : SolverInput) : List String :=
  I.specialLabRooms.flatMap (fun p => p.2.map (fun s => pyStrip s))

/-- `normal_labs`: stripped lab rooms that are not special-lab rooms. -/
def normal_labs (I : SolverInput) : List String :=
  (I.labRooms.map (fun s => pyStrip s)).filter
    (fun lr => !(all_special_labs I).contains lr)

/-- `combined_labs = list(set(normal_labs) | all_special_labs)`; the Python
set order is unspecified and only membership and cardinality matter, so the
deduplicated concatenation stands for it. -/
def combined_labs (I : SolverInput) : List String :=
  (normal_labs I ++ all_special_labs I).dedup

/-- `enable_cohort and code in is_cohort_course.get(sem, [])`. -/
def isCohortCourse (I : SolverInput) (sem : Nat) (code : String) : Bool :=
  I.enableCohort && I.cohortMap.any (fun p => decide (p.1.1 = sem) && decide (p.1.2 = code))

def semSections (I : SolverInput) (sem : Nat) : List String :=
  build_sections_for_semester sem (I.sectionSizes sem) I.sectionSize I.programCode

/-- Valid rooms for a lab course: its special labs (stripped) or the normal
labs. -/
def lab_rooms_for (I : SolverInput) (code : String) : List String :=
  match alget I.specialLabRooms code with
  | some l => l.map (fun s => pyStrip s)
  | none => normal_labs I

/-- Key of one normal decision variable `(sec, code, day, slot, room)`. -/
structure AKey where
  sec : String
  code : String
  day : String
  slot : Nat
  room : String
deriving DecidableEq, Repr

/-- Whether step 6 creates a theory variable under this key: some selected
semester has this section and a non-cohort theory course with this code, the
(day, slot, room) is in range, not the Friday-slot-3 blackout, and the slot
is not already used in the theory ledger for this room and day. -/
def theoryVarCreated (I : SolverInput) (k : AKey) : Bool :=
  I.selected.any (fun sem =>
    (semSections I sem).contains k.sec &&
    (I.courses sem).any (fun c =>
      c.code == k.code && !c.is_lab && !(isCohortCourse I sem c.code))) &&
  I.days.contains k.day &&
  I.theorySlots.contains k.slot &&
  !(k.day == "Friday" && k.slot == 3) &&
  I.theoryRooms.contains k.room &&
  !((usedSlots I.usageTheory k.room k.day).contains k.slot)

/-- Whether step 6 creates a lab variable under this key (no blackout check;
rooms from the course's special labs or the normal labs; the lab ledger). -/
def labVarCreated (I : SolverInput) (k : AKey) : Bool :=
  I.selected.any (fun sem =>
    (semSections I sem).contains k.sec &&
    (I.courses sem).any (fun c =>
      c.code == k.code && c.is_lab && !(isCohortCourse I sem c.code))) &&
  I.days.contains k.day &&
  I.labSlots.contains k.slot &&
  (lab_rooms_for I k.code).contains k.room &&
  !((usedSlots I.usageLab k.room k.day).contains k.slot)

/-- The `assignments` dict holds this key (`assignments.get(key)` is a var). -/
def varCreated (I : SolverInput) (k : AKey) : Bool :=
  theoryVarCreated I k || labVarCreated I k

/-- A valuation of the model: normal variables, `day_assigned` and
`assigned_cohort_sec`. -/
structure TVal where
  a : AKey → Bool
  dayA : String → String → String → Bool
  cohortA : String → String → String → Bool

/-- The value `assignments.get(key, 0)` contributes to a posted sum. -/
def isOn (I : SolverInput) (v : TVal) (k : AKey) : Bool :=
  varCreated I k && v.a k

/-- The (day-fixed) key enumeration of the theory loops: slots skipping the
Friday-3 blackout, then all theory rooms. -/
def theoryRangeKeysOnDay (I : SolverInput) (sec code d : String) : List AKey :=
  (I.theorySlots.filter (fun t => !(d == "Friday" && t == 3))).flatMap (fun t =>
    I.theoryRooms.map (fun r => ⟨sec, code, d, t, r⟩))

def theoryRangeKeys (I : SolverInput) (sec code : String) : List AKey :=
  I.days.flatMap (theoryRangeKeysOnDay I sec code)

def labRangeKeys (I : SolverInput) (sec code : String) : List AKey :=
  I.days.flatMap (fun d => I.labSlots.flatMap (fun ls =>
    (lab_rooms_for I code).map (fun r => ⟨sec, code, d, ls, r⟩)))

/-- The (section, course) iteration space of the non-cohort constraint and
extraction loops: selected semesters, their sections, their courses minus
cohort courses. -/
def pairList (I : SolverInput) : List (String × Course) :=
  I.selected.flatMap (fun sem => (semSections I sem).flatMap (fun sec =>
    (I.courses sem).filterMap (fun c =>
      if isCohortCourse I sem c.code then none else some (sec, c))))

/-- Step 7's exact-demand constraints: for every iterated (section, course)
the posted sum of its variables equals `times_needed`. -/
def timesNeededOk (I : SolverInput) (v : TVal) : Prop :=
  ∀ p ∈ pairList I,
    (if p.2.is_lab then (labRangeKeys I p.1 p.2.code).countP (isOn I v)
     else (theoryRangeKeys I p.1 p.2.code).countP (isOn I v)) = p.2.times_needed

/-- Step 7's distinct-day block for theory courses: the `day_assigned` sum,
the two linking inequalities per day, and (for `times_needed > 1`) the
no-consecutive-day constraint over adjacent positions of `DAYS`. -/
def dayLinkOk (I : SolverInput) (v : TVal) : Prop :=
  ∀ p ∈ pairList I, p.2.is_lab = false →
    (I.days.countP (fun d => v.dayA p.1 p.2.code d) = p.2.times_needed) ∧
    (∀ d ∈ I.days,
      b2n (v.dayA p.1 p.2.code d) ≤
        (theoryRangeKeysOnDay I p.1 p.2.code d).countP (isOn I v) ∧
      (theoryRangeKeysOnDay I p.1 p.2.code d).countP (isOn I v) ≤
        I.theorySlots.length * b2n (v.dayA p.1 p.2.code d)) ∧
    (1 < p.2.times_needed →
      ∀ dd ∈ I.days.zip I.days.tail,
        b2n (v.dayA p.1 p.2.code dd.1) + b2n (v.dayA p.1 p.2.code dd.2) ≤ 1)

/-- Step 8's theory room mutex: at most one theory variable true per
(day, slot, room). -/
def theoryRoomMutexOk (I : SolverInput) (v : TVal) : Prop :=
  ∀ d ∈ I.days, ∀ t ∈ I.theorySlots, ¬(d = "Friday" ∧ t = 3) →
    ∀ r ∈ I.theoryRooms,
      (pairList I).countP
        (fun p => !p.2.is_lab && isOn I v ⟨p.1, p.2.code, d, t, r⟩) ≤ 1

/-- Step 8's lab room mutex over `combined_labs`. -/
def labRoomMutexOk (I : SolverInput) (v : TVal) : Prop :=
  ∀ d ∈ I.days, ∀ ls ∈ I.labSlots, ∀ lr ∈ combined_labs I,
    (pairList I).countP
      (fun p => p.2.is_lab && isOn I v ⟨p.1, p.2.code, d, ls, lr⟩) ≤ 1

/-- The end-minute tables of step 12 (`theory_end_times.get(slot, 0)` /
`lab_end_times.get(slot, 0)`). -/
def theory_end_times (t : Nat) : Int :=
  match t with
  | 0 => 555 | 1 => 645 | 2 => 735 | 3 => 825
  | 4 => 915 | 5 => 1005 | 6 => 1095 | _ => 0

def lab_end_times (ls : Nat) : Int :=
  match ls with
  | 0 => 630 | 1 => 810 | 2 => 990 | 3 => 1170 | _ => 0

/-- The condition under which the `noClassesAfterHour` clamp fixes a normal
decision variable to 0, exactly as coded: the slot index is looked up in
`THEORY_TIMESLOTS` FIRST, and only a slot index in neither list is ignored.

```python
slot = key[3]
if slot in THEORY_TIMESLOTS:
    if theory_end_times.get(slot, 0) > cutoff_end_minute: model.Add(var == 0)
elif slot in LAB_SLOTS:
    if lab_end_times.get(slot, 0) > cutoff_end_minute: model.Add(var == 0)
``` -/
def cutoffForcesZero (theorySlots labSlots : List Nat) (cutoff : Int)
    (slot : Nat) : Bool :=
  if theorySlots.contains slot then decide (theory_end_times slot > cutoff)
  else if labSlots.contains slot then decide (lab_end_times slot > cutoff)
  else false

/-- Step 12 as posted on the model: every created variable the clamp reaches
is fixed to 0. -/
def noClassesOk (I : SolverInput) (v : TVal) : Prop :=
  match I.noClassesAfterHour with
  | none => True
  | some h => ∀ k : AKey, varCreated I k = true →
      cutoffForcesZero I.theorySlots I.labSlots (h * 60) k.slot = true →
      v.a k = false

/-- One extraction record before it is keyed into `schedule_map` /
`new_allocations`. -/
structure Write where
  kind : String
  room : String
  day : String
  slot : Nat
  sec : String
  code : String
  cohort : Option String
deriving DecidableEq, Repr

/-- Step 14's per-(section, course) extraction loop. -/
def writesFor (I : SolverInput) (v : TVal) (sec : String) (c : Course) :
    List Write :=
  if c.is_lab then
    (labRangeKeys I sec c.code).filterMap (fun k =>
      if isOn I v k then some ⟨"lab", k.room, k.day, k.slot, sec, c.code, none⟩
      else none)
  else
    (theoryRangeKeys I sec c.code).filterMap (fun k =>
      if isOn I v k then some ⟨"theory", k.room, k.day, k.slot, sec, c.code, none⟩
      else none)

def normalWrites (I : SolverInput) (v : TVal) : List Write :=
  (pairList I).flatMap (fun p => writesFor I v p.1 p.2)

/-- `csec_data.get("cohort_room", f"CohortRoom({code}-{csec_name})")`. -/
def cohortRoomOf (code : String) (cd : CohortSec) : String :=
  cd.room.getD ("CohortRoom(" ++ code ++ "-" ++ cd.name ++ ")")

/-- The chosen cohort offering (first with a true `assigned_cohort_sec` var)
and its fixed placements, skipping the Friday-slot-3 blackout. -/
def cohortWritesFor (I : SolverInput) (v : TVal) (sem : Nat) (code sec : String) :
    List Write :=
  match ((cmget I.cohortMap (sem, code)).getD []).find?
      (fun cd => v.cohortA sec code cd.name) with
  | none => []
  | some cd =>
    cd.dayTimeList.filterMap (fun dt =>
      if dt.1 == "Friday" && dt.2 == 3 then none
      else some ⟨"cohort", cohortRoomOf code cd, dt.1, dt.2, sec, code,
        some cd.name⟩)

def cohortWrites (I : SolverInput) (v : TVal) : List Write :=
  if I.enableCohort && !I.cohortMap.isEmpty then
    I.selected.flatMap (fun sem => (I.courses sem).flatMap (fun c =>
      if isCohortCourse I sem c.code then
        (semSections I sem).flatMap (fun sec => cohortWritesFor I v sem c.code sec)
      else []))
  else []

def dkey (w : Write) : String × Nat × String := (w.day, w.slot, w.room)

def dval (w : Write) : String × String × Option String := (w.sec, w.code, w.cohort)

abbrev ScheduleMap :=
  List ((String × Nat × String) × (String × String × Option String))

/-- Python dict item assignment (replace in place or append). -/
def dinsert (m : ScheduleMap) (k : String × Nat × String)
    (val : String × String × Option String) : ScheduleMap :=
  if m.any (fun e => decide (e.1 = k)) then
    m.map (fun e => if e.1 = k then (k, val) else e)
  else
    m ++ [(k, val)]

/-- The returned `schedule_map`: normal writes then cohort writes, last
write per (day, slot, room) key wins. -/
def schedule_map (I : SolverInput) (v : TVal) : ScheduleMap :=
  (normalWrites I v ++ cohortWrites I v).foldl
    (fun m w => dinsert m (dkey w) (dval w)) []

/-- The returned `new_allocations` list. -/
def new_allocations (I : SolverInput) (v : TVal) : List Alloc :=
  (normalWrites I v ++ cohortWrites I v).map
    (fun w => ⟨w.kind, w.room, w.day, w.slot, w.sec ++ "-" ++ w.code⟩)

/-- Step 3's usage count: total used theory entries in the ledger. -/
def theory_used (I : SolverInput) : Nat :=
  (I.usageTheory.map (fun rp => (rp.2.map (fun dp => dp.2.length)).sum)).sum

def lab_used (I : SolverInput) : Nat :=
  (I.usageLab.map (fun rp => (rp.2.map (fun dp => dp.2.length)).sum)).sum

def total_theory_capacity (I : SolverInput) : Nat :=
  I.days.length * I.theorySlots.length * I.theoryRooms.length

def total_lab_capacity (I : SolverInput) : Nat :=
  I.days.length * I.labSlots.length * (combined_labs I).length

def available_theory (I : SolverInput) : Int :=
  (total_theory_capacity I : Int) - (theory_used I : Int)

def available_lab (I : SolverInput) : Int :=
  (total_lab_capacity I : Int) - (lab_used I : Int)

def needed_theory (I : SolverInput) : Nat :=
  (I.selected.map (fun sem =>
    ((I.courses sem).map (fun c => if c.is_lab then 0 else c.times_needed)).sum)).sum

def needed_lab (I : SolverInput) : Nat :=
  (I.selected.map (fun sem =>
    ((I.courses sem).map (fun c => if c.is_lab then c.times_needed else 0)).sum)).sum

/-- Step 3's pre-solve capacity check, with the exact `ValueError` texts. -/
def capacityFailure (I : SolverInput) : Option String :=
  if (needed_theory I : Int) > available_theory I then
    some ("Not enough free THEORY slots. Need=" ++ toString (needed_theory I) ++
      ", Have=" ++ toString (available_theory I) ++ ".")
  else if (needed_lab I : Int) > available_lab I then
    some ("Not enough free LAB slots. Need=" ++ toString (needed_lab I) ++
      ", Have=" ++ toString (available_lab I) ++ ".")
  else none

def semester_sections_map (I : SolverInput) : List (Nat × List String) :=
  I.selected.map (fun sem => (sem, semSections I sem))

/-- `schedule_timetable` end to end: the capacity check runs first and raises
(`.error`) independently of any solve; otherwise the solver outcome `sol`
(`none` = infeasible → `None`, `some v` = a satisfying valuation) is
extracted. -/
def schedule_timetable (I : SolverInput) (sol : Option TVal) :
    Except String (Option (ScheduleMap × List (Nat × List String) × List Alloc)) :=
  match capacityFailure I with
  | some msg => .error msg
  | none =>
    match sol with
    | none => .ok none
    | some v => .ok (some (schedule_map I v, semester_sections_map I, new_allocations I v))

/-- C4: `schedule_timetable` raises the capacity `ValueError` (the spec's
`CapacityError`), for every solver outcome alike — i.e. before any model is
built or solver consulted — exactly when the needed theory slots exceed the
free theory slots left by the ledger or the needed lab slots exceed the free
lab slots; otherwise no capacity error is raised. -/
theorem schedule_timetable_capacity_check (I : SolverInput) :
    (((needed_theory I : Int) > available_theory I ∨
      (needed_lab I : Int) > available_lab I) →
      ∃ msg, ∀ sol, schedule_timetable I sol = Except.error msg) ∧
    (¬((needed_theory I : Int) > available_theory I ∨
      (needed_lab I : Int) > available_lab I) →
      ∀ sol, ∃ r, schedule_timetable I sol = Except.ok r) := by
  constructor
  · intro hor
    have hc : ∃ msg, capacityFailure I = some msg := by
      unfold capacityFailure
      by_cases h1 : (needed_theory I : Int) > available_theory I
      · rw [if_pos h1]; exact ⟨_, rfl⟩
      · rw [if_neg h1, if_pos (hor.resolve_left h1)]; exact ⟨_, rfl⟩
    obtain ⟨msg, hmsg⟩ := hc
    refine ⟨msg, fun sol => ?_⟩
    unfold schedule_timetable
    rw [hmsg]
  · intro hnor
    push_neg at hnor
    have hc : capacityFailure I = none := by
      unfold capacityFailure
      rw [if_neg (not_lt.mpr hnor.1), if_neg (not_lt.mpr hnor.2)]
    intro sol
    cases sol with
    | none =>
      refine ⟨none, ?_⟩
      unfold schedule_timetable
      rw [hc]
    | some v =>
      refine ⟨some (schedule_map I v, semester_sections_map I, new_allocations I v), ?_⟩
      unfold schedule_timetable
      rw [hc]

/-- 1 semester, one theory course needing 3 sessions, but only 1 free theory
slot in total: the pre-solve check must fire. -/
def capWitnessInput : SolverInput :=
  { selected := [1]
    courses := fun sem => if sem = 1 then [⟨"CS101", "Intro", false, 3⟩] else []
    sectionSizes := fun _ => 10
    usageTheory := []
    usageLab := []
    days := ["Monday"]
    theorySlots := [0]
    labSlots := []
    labOverlap := []
    theoryRooms := ["R1"]
    labRooms := []
    specialLabRooms := []
    sectionSize := 50
    programCode := "A"
    cohortMap := []
    enableCohort := false
    maxHoursPerDay := 8
    workingDaysPerWeek := 6
    minGapMinutes := 15
    noClassesAfterHour := none }

/-- Witness: on `capWitnessInput` the capacity error fires for every solver
outcome. -/
theorem schedule_timetable_capacity_check_witness :
    ∃ msg, ∀ sol, schedule_timetable capWitnessInput sol = Except.error msg :=
  (schedule_timetable_capacity_check capWitnessInput).1 (Or.inl (by decide))

/-- A lab course under `noClassesAfterHour = 14` with the app's default
catalogs (`THEORY_TIMESLOTS = [0..6]`, `LAB_SLOTS = [0..3]`). -/
def cutoffWitnessInput : SolverInput :=
  { selected := [1]
    courses := fun sem => if sem = 1 then [⟨"PH100", "Physics Lab", true, 1⟩] else []
    sectionSizes := fun _ => 10
    usageTheory := []
    usageLab := []
    days := ["Monday", "Tuesday", "Wednesday", "Thursday", "Friday", "Saturday"]
    theorySlots := [0, 1, 2, 3, 4, 5, 6]
    labSlots := [0, 1, 2, 3]
    labOverlap := [(0, [0, 1]), (1, [2, 3]), (2, [4, 5]), (3, [6])]
    theoryRooms := []
    labRooms := ["L1"]
    specialLabRooms := []
    sectionSize := 50
    programCode := "A"
    cohortMap := []
    enableCohort := false
    maxHoursPerDay := 8
    workingDaysPerWeek := 6
    minGapMinutes := 15
    noClassesAfterHour := some 14 }

/-- A valuation setting exactly the variables the clamp does not force to 0. -/
def cutoffWitnessVal : TVal :=
  { a := fun k => !(cutoffForcesZero [0, 1, 2, 3, 4, 5, 6] [0, 1, 2, 3] 840 k.slot)
    dayA := fun _ _ _ => false
    cohortA := fun _ _ _ => false }

/-- C7 fails on the code: with the default catalogs every lab slot index also
occurs in `THEORY_TIMESLOTS`, so the clamp tests lab variables against
`theory_end_times`.  For `noClassesAfterHour = 14` (cutoff 840) the lab
variable at slot 2 (14:00–16:30, end 990 > 840) is NOT fixed to 0 — the
clamp looks up `theory_end_times[2] = 735 ≤ 840` — and a valuation
satisfying the posted clamp can still set that created lab variable,
although its slot ends strictly after the cutoff. -/
theorem noClassesAfterHour_misses_lab_slot :
    cutoffForcesZero [0, 1, 2, 3, 4, 5, 6] [0, 1, 2, 3] (14 * 60) 2 = false ∧
    lab_end_times 2 = 990 ∧ ((14 : Int) * 60 < 990) ∧
    labVarCreated cutoffWitnessInput ⟨"S1A1", "PH100", "Monday", 2, "L1"⟩ = true ∧
    noClassesOk cutoffWitnessInput cutoffWitnessVal ∧
    cutoffWitnessVal.a ⟨"S1A1", "PH100", "Monday", 2, "L1"⟩ = true := by
  refine ⟨by decide, rfl, by decide, by decide, ?_, by decide⟩
  unfold noClassesOk
  intro k _ hforce
  show (!(cutoffForcesZero [0, 1, 2, 3, 4, 5, 6] [0, 1, 2, 3] 840 k.slot)) = false
  have he : cutoffForcesZero [0, 1, 2, 3, 4, 5, 6] [0, 1, 2, 3] 840 k.slot = true :=
    hforce
  rw [he]
  rfl

theorem theoryRangeKeys_no_blackout (I : SolverInput) (sec code : String) :
    ∀ k ∈ theoryRangeKeys I sec code, ¬(k.day = "Friday" ∧ k.slot = 3) := by
  intro k hk ⟨hd, hs⟩
  unfold theoryRangeKeys theoryRangeKeysOnDay at hk
  obtain ⟨d, _, hk2⟩ := List.mem_flatMap.mp hk
  obtain ⟨t, ht, hk3⟩ := List.mem_flatMap.mp hk2
  obtain ⟨r, _, hk4⟩ := List.mem_map.mp hk3
  obtain ⟨htmem, htcond⟩ := List.mem_filter.mp ht
  rw [← hk4] at hd hs
  simp only at hd hs
  rw [hd, hs] at htcond
  simp at htcond

theorem writesFor_friday3 (I : SolverInput) (v : TVal) (sec : String) (c : Course) :
    ∀ w ∈ writesFor I v sec c, w.day = "Friday" → w.slot = 3 → w.kind = "lab" := by
  intro w hw hd hs
  unfold writesFor at hw
  cases hlab : c.is_lab with
  | true =>
    rw [hlab, if_pos rfl] at hw
    obtain ⟨k, _, hk⟩ := List.mem_filterMap.mp hw
    cases hon : isOn I v k with
    | true =>
      rw [hon, if_pos rfl] at hk
      injection hk with hk2
      rw [← hk2]
    | false => rw [hon] at hk; simp at hk
  | false =>
    rw [hlab] at hw
    simp only [Bool.false_eq_true, if_neg, not_false_iff] at hw
    obtain ⟨k, hkmem, hk⟩ := List.mem_filterMap.mp hw
    cases hon : isOn I v k with
    | false => rw [hon] at hk; simp at hk
    | true =>
      rw [hon, if_pos rfl] at hk
      injection hk with hk2
      exfalso
      refine theoryRangeKeys_no_blackout I sec c.code k hkmem ⟨?_, ?_⟩
      · rw [show k.day = w.day by rw [← hk2], hd]
      · rw [show k.slot = w.slot by rw [← hk2], hs]

theorem cohortWritesFor_friday3 (I : SolverInput) (v : TVal) (sem : Nat)
    (code sec : String) :
    ∀ w ∈ cohortWritesFor I v sem code sec,
      ¬(w.day = "Friday" ∧ w.slot = 3) := by
  intro w hw ⟨hd, hs⟩
  unfold cohortWritesFor at hw
  cases hfind : ((cmget I.cohortMap (sem, code)).getD []).find?
      (fun cd => v.cohortA sec code cd.name) with
  | none => rw [hfind] at hw; cases hw
  | some cd =>
    rw [hfind] at hw
    simp only at hw
    obtain ⟨dt, _, hdt⟩ := List.mem_filterMap.mp hw
    cases hcond : (dt.1 == "Friday" && dt.2 == 3) with
    | true => rw [hcond] at hdt; simp at hdt
    | false =>
      rw [hcond] at hdt
      simp only [Bool.false_eq_true, if_neg, not_false_iff] at hdt
      injection hdt with hdt2
      rw [← hdt2] at hd hs
      simp only at hd hs
      rw [hd, hs] at hcond
      simp at hcond

theorem theory_combos_no_blackout (E : ElecInput) :
    ∀ c ∈ theory_combos E, ¬(c.2.1 = "Friday" ∧ c.2.2 = 3) := by
  intro c hc ⟨hd, hs⟩
  unfold theory_combos at hc
  obtain ⟨r, _, hc2⟩ := List.mem_flatMap.mp hc
  obtain ⟨d, _, hc3⟩ := List.mem_flatMap.mp hc2
  obtain ⟨ts, _, hc4⟩ := List.mem_filterMap.mp hc3
  by_cases h1 : (d == "Friday" && ts == 3) = true
  · rw [if_pos h1] at hc4; cases hc4
  · rw [if_neg h1] at hc4
    by_cases h2 : ((usedSlots E.usageTheory r d).contains ts) = true
    · rw [if_pos h2] at hc4; cases hc4
    · rw [if_neg h2] at hc4
      injection hc4 with hc5
      rw [← hc5] at hd hs
      simp only at hd hs
      rw [hd, hs] at h1
      simp at h1

def blackoutWitnessInput : SolverInput :=
  { selected := [1]
    courses := fun sem =>
      if sem = 1 then [⟨"CS101", "Intro", false, 2⟩, ⟨"PH100", "Physics Lab", true, 1⟩]
      else []
    sectionSizes := fun _ => 10
    usageTheory := []
    usageLab := []
    days := ["Monday", "Tuesday", "Wednesday", "Thursday", "Friday", "Saturday"]
    theorySlots := [0, 1, 2, 3, 4, 5, 6]
    labSlots := [0, 1, 2, 3]
    labOverlap := [(0, [0, 1]), (1, [2, 3]), (2, [4, 5]), (3, [6])]
    theoryRooms := ["R1"]
    labRooms := ["L1"]
    specialLabRooms := []
    sectionSize := 50
    programCode := "A"
    cohortMap := []
    enableCohort := false
    maxHoursPerDay := 8
    workingDaysPerWeek := 6
    minGapMinutes := 15
    noClassesAfterHour := none }

def blackoutWitnessElec : ElecInput :=
  { electives := []
    usageTheory := []
    usageLab := []
    days := ["Monday", "Tuesday", "Wednesday", "Thursday", "Friday", "Saturday"]
    theorySlots := [0, 1, 2, 3, 4, 5, 6]
    labSlots := [0, 1, 2, 3]
    theoryRooms := ["R1"]
    labRooms := ["L1"]
    theory_needed := 2
    lab_needed := 1 }

/-- C2: a placement at (day=Friday, slot index 3) in the allocations of
`schedule_timetable` or `schedule_electives` can only be a lab placement —
no theory (or cohort) placement ever lands there.  The blackout applies only
to theory slots: a theory variable at slot 3 on Monday and a lab variable at
Friday slot 3 are still created by the main model, and the elective model
still offers (Monday, theory 3) and (Friday, lab 3) combos. -/
theorem friday_theory_slot3_blackout :
    (∀ (I : SolverInput) (v : TVal), ∀ a ∈ new_allocations I v,
      a.day = "Friday" → a.slot = 3 → a.rtype = "lab") ∧
    (∀ (E : ElecInput) (v : EVal), ∀ a ∈ electiveAllocations E v,
      a.day = "Friday" → a.slot = 3 → a.rtype = "lab") ∧
    theoryVarCreated blackoutWitnessInput ⟨"S1A1", "CS101", "Monday", 3, "R1"⟩ = true ∧
    labVarCreated blackoutWitnessInput ⟨"S1A1", "PH100", "Friday", 3, "L1"⟩ = true ∧
    ("R1", "Monday", 3) ∈ theory_combos blackoutWitnessElec ∧
    ("L1", "Friday", 3) ∈ lab_combos blackoutWitnessElec := by
  refine ⟨?_, ?_, by decide, by decide, by decide, by decide⟩
  · intro I v a ha hd hs
    unfold new_allocations at ha
    obtain ⟨w, hw, hwa⟩ := List.mem_map.mp ha
    have hwd : w.day = "Friday" := by rw [← hwa] at hd; exact hd
    have hws : w.slot = 3 := by rw [← hwa] at hs; exact hs
    have hgoal : a.rtype = w.kind := by rw [← hwa]
    rw [hgoal]
    rcases List.mem_append.mp hw with h1 | h1
    · obtain ⟨p, _, hwf⟩ := List.mem_flatMap.mp h1
      exact writesFor_friday3 I v p.1 p.2 w hwf hwd hws
    · exfalso
      unfold cohortWrites at h1
      cases hg : (I.enableCohort && !I.cohortMap.isEmpty) with
      | false => rw [hg] at h1; simp at h1
      | true =>
        rw [hg, if_pos rfl] at h1
        obtain ⟨sem, _, h2⟩ := List.mem_flatMap.mp h1
        obtain ⟨c, _, h3⟩ := List.mem_flatMap.mp h2
        cases hco : isCohortCourse I sem c.code with
        | false => rw [hco] at h3; simp at h3
        | true =>
          rw [hco, if_pos rfl] at h3
          obtain ⟨sec, _, h4⟩ := List.mem_flatMap.mp h3
          exact cohortWritesFor_friday3 I v sem c.code sec w h4 ⟨hwd, hws⟩
  · intro E v a ha hd hs
    unfold electiveAllocations at ha
    obtain ⟨e, _, ha2⟩ := List.mem_flatMap.mp ha
    obtain ⟨idx, _, ha3⟩ := List.mem_flatMap.mp ha2
    obtain ⟨s, hsmem, hsa⟩ := List.mem_map.mp ha3
    have hsd : s.2.2.1 = "Friday" := by rw [← hsa] at hd; exact hd
    have hss : s.2.2.2 = 3 := by rw [← hsa] at hs; exact hs
    have hgoal : a.rtype = s.1 := by rw [← hsa]
    rw [hgoal]
    unfold assignedSlots at hsmem
    rcases List.mem_append.mp hsmem with h1 | h1
    · exfalso
      obtain ⟨c, hcmem, hc⟩ := List.mem_filterMap.mp h1
      cases hon : v.a ⟨e.code, idx, "theory", c.1, c.2.1, c.2.2⟩ with
      | false => rw [hon] at hc; simp at hc
      | true =>
        rw [hon, if_pos rfl] at hc
        injection hc with hc2
        refine theory_combos_no_blackout E c hcmem ⟨?_, ?_⟩
        · rw [show c.2.1 = s.2.2.1 by rw [← hc2], hsd]
        · rw [show c.2.2 = s.2.2.2 by rw [← hc2], hss]
    · obtain ⟨c, _, hc⟩ := List.mem_filterMap.mp h1
      cases hon : v.a ⟨e.code, idx, "lab", c.1, c.2.1, c.2.2⟩ with
      | false => rw [hon] at hc; simp at hc
      | true =>
        rw [hon, if_pos rfl] at hc
        injection hc with hc2
        rw [← hc2]

/-! ## Teacher assignment (`TeacherAssigner.assign_teachers`,
backend/scheduler/services/teacher_assigner.py)

The in-memory algorithm: sort preferences by specificity, then greedily
assign each preference's matching unassigned slots up to `sections_count`,
skipping any slot whose timeslot the teacher already occupies.  The state
carries the `assigned_slots` set, the per-teacher `teacher_timeslots` map
(modelled as a total function, empty lists initially) and the
`assignments_to_save` list (slot together with the teacher it received). -/

structure Subj where
  code : String
  is_lab : Bool
deriving DecidableEq, Repr

/-- One `TimetableSlot` row with the fields the assigner reads: primary key,
subject and section foreign keys, and the referenced `TimeSlot`'s primary
key, day and start time. -/
structure TSlot where
  id : Nat
  subjectId : Nat
  sectionId : Nat
  timeslotId : Nat
  tsDay : Nat
  tsStart : Nat
deriving DecidableEq, Repr

structure Pref where
  teacherId : Nat
  teacherName : String
  course_code : String
  sections_count : Nat
  can_theory : Bool
  can_lab : Bool
deriving DecidableEq, Repr

/-- `_sort_preferences_by_priority`'s priority level. -/
def priorityOf (p : Pref) : Nat :=
  if !(p.course_code == "*") && !(p.can_theory && p.can_lab) then 0
  else if !(p.course_code == "*") && (p.can_theory && p.can_lab) then 1
  else if (p.course_code == "*") && !(p.can_theory && p.can_lab) then 2
  else 3

/-- Strict order on the sort key `(priority, course_code, teacher.name)`. -/
def keyLt (a b : Pref) : Bool :=
  decide (priorityOf a < priorityOf b) ||
  (priorityOf a == priorityOf b &&
    (decide (a.course_code < b.course_code) ||
     (a.course_code == b.course_code && decide (a.teacherName < b.teacherName))))

/-- Stable insertion: `x` goes before the first entry strictly greater than
it, behind equal keys it was listed after (Python `sorted` is stable). -/
def insertPref (x : Pref) : List Pref → List Pref
  | [] => [x]
  | y :: ys => if keyLt y x then y :: insertPref x ys else x :: y :: ys

def sortPrefs : List Pref → List Pref
  | [] => []
  | x :: xs => insertPref x (sortPrefs xs)

structure AState where
  assigned : List Nat
  tts : Nat → List Nat
  saves : List (TSlot × Nat)

/-- `defaultdict` grouping keys in first-appearance order. -/
def regroupKeys (l : List (Nat × Nat)) : List (Nat × Nat) :=
  l.foldl (fun acc k => if acc.any (fun k2 => decide (k2 = k)) then acc else acc ++ [k]) []

/-- Group the matching slots by (section_id, subject_id) and flatten back. -/
def regroup (l : List TSlot) : List TSlot :=
  (regroupKeys (l.map (fun s => (s.sectionId, s.subjectId)))).flatMap
    (fun k => l.filter (fun s => decide ((s.sectionId, s.subjectId) = k)))

/-- The match test of `_find_matching_slots`: not already assigned, course
code matches or wildcard, kind compatible. -/
def slotMatches (subjects : Nat → Subj) (pref : Pref) (assigned : List Nat)
    (s : TSlot) : Bool :=
  !assigned.contains s.id &&
  (pref.course_code == "*" || (subjects s.subjectId).code == pref.course_code) &&
  (if (subjects s.subjectId).is_lab then pref.can_lab else pref.can_theory)

def find_matching_slots (subjects : Nat → Subj) (slots : List TSlot)
    (pref : Pref) (assigned : List Nat) : List TSlot :=
  regroup (slots.filter (slotMatches subjects pref assigned))

/-- The per-preference assignment loop: stop at `sections_count`, skip a slot
whose timeslot id the teacher already holds, otherwise record the
assignment. -/
def assignLoop (tid need : Nat) : List TSlot → Nat → AState → AState
  | [], _, st => st
  | s :: rest, cnt, st =>
    if need ≤ cnt then st
    else if (st.tts tid).contains s.timeslotId then assignLoop tid need rest cnt st
    else
      assignLoop tid need rest (cnt + 1)
        { assigned := st.assigned ++ [s.id]
          tts := fun t => if t = tid then st.tts t ++ [s.timeslotId] else st.tts t
          saves := st.saves ++ [(s, tid)] }

def processPref (subjects : Nat → Subj) (slots : List TSlot) (st : AState)
    (pref : Pref) : AState :=
  assignLoop pref.teacherId pref.sections_count
    (find_matching_slots subjects slots pref st.assigned) 0 st

def assign_teachers (subjects : Nat → Subj) (slots : List TSlot)
    (prefs : List Pref) : AState :=
  (sortPrefs prefs).foldl (processPref subjects slots) ⟨[], fun _ => [], []⟩

/-- The run invariant: per teacher the saved timeslot ids are distinct and
recorded in `teacher_timeslots`; saved slot ids are distinct and recorded in
`assigned_slots`; every saved slot is a real slot. -/
def AInv (slots : List TSlot) (st : AState) : Prop :=
  (∀ tid, (((st.saves.filter (fun pr => pr.2 == tid)).map
    (fun pr => pr.1.timeslotId)).Nodup)) ∧
  (∀ pr ∈ st.saves, pr.1.timeslotId ∈ st.tts pr.2) ∧
  ((st.saves.map (fun pr => pr.1.id)).Nodup) ∧
  (∀ pr ∈ st.saves, pr.1.id ∈ st.assigned) ∧
  (∀ pr ∈ st.saves, pr.1 ∈ slots)

theorem nodup_map_of_inj {α β γ : Type} (l : List α) (f : α → β) (g : α → γ)
    (hf : (l.map f).Nodup)
    (hinj : ∀ a ∈ l, ∀ b ∈ l, g a = g b → f a = f b) : (l.map g).Nodup := by
  induction l with
  | nil => exact List.nodup_nil
  | cons x xs ih =>
    simp only [List.map_cons, List.nodup_cons] at hf ⊢
    constructor
    · intro hmem
      obtain ⟨y, hy, hyx⟩ := List.mem_map.mp hmem
      exact hf.1 (List.mem_map.mpr ⟨y, hy,
        hinj y (by simp [hy]) x (by simp) hyx⟩)
    · exact ih hf.2 (fun a ha b hb => hinj a (by simp [ha]) b (by simp [hb]))

theorem mem_regroupKeys (l : List (Nat × Nat)) :
    ∀ acc : List (Nat × Nat), acc.Nodup →
      (l.foldl (fun acc k =>
        if acc.any (fun k2 => decide (k2 = k)) then acc else acc ++ [k]) acc).Nodup := by
  induction l with
  | nil => intro acc h; exact h
  | cons k rest ih =>
    intro acc h
    simp only [List.foldl_cons]
    cases hc : acc.any (fun k2 => decide (k2 = k)) with
    | true =>
      rw [if_pos rfl]
      exact ih acc h
    | false =>
      rw [if_neg (by simp)]
      refine ih (acc ++ [k]) ?_
      simp only [List.nodup_append, List.nodup_cons, List.not_mem_nil,
        not_false_iff, List.nodup_nil, and_true, true_and]
      refine ⟨h, ?_⟩
      intro x hx hxk
      simp only [List.mem_singleton] at hxk
      have : acc.any (fun k2 => decide (k2 = k)) = true :=
        List.any_eq_true.mpr ⟨x, hx, by simp [hxk]⟩
      rw [this] at hc
      cases hc

theorem regroupKeys_nodup (l : List (Nat × Nat)) : (regroupKeys l).Nodup :=
  mem_regroupKeys l [] List.nodup_nil

theorem mem_of_mem_regroup {l : List TSlot} {x : TSlot} (h : x ∈ regroup l) :
    x ∈ l := by
  unfold regroup at h
  obtain ⟨k, _, hx⟩ := List.mem_flatMap.mp h
  exact (List.mem_filter.mp hx).1

/-- Regrouping keeps slot ids duplicate-free. -/
theorem regroup_nodup_ids {l : List TSlot}
    (h : (l.map TSlot.id).Nodup) : ((regroup l).map TSlot.id).Nodup := by
  unfold regroup
  rw [List.map_flatMap]
  apply List.nodup_flatMap.mpr
  constructor
  · intro k _
    apply List.Nodup.map_on
    · intro a ha b hb hab
      exact List.inj_on_of_nodup_map h (List.mem_filter.mp ha).1
        (List.mem_filter.mp hb).1 hab
    · exact List.Nodup.filter _ (List.Nodup.of_map _ h)
  · have hnd := regroupKeys_nodup (l.map (fun s => (s.sectionId, s.subjectId)))
    refine hnd.imp ?_
    intro k1 k2 hne x hx1 hx2
    obtain ⟨a, ha, hax⟩ := List.mem_map.mp hx1
    obtain ⟨b, hb, hbx⟩ := List.mem_map.mp hx2
    obtain ⟨hal, hak⟩ := List.mem_filter.mp ha
    obtain ⟨hbl, hbk⟩ := List.mem_filter.mp hb
    have hab : a = b :=
      List.inj_on_of_nodup_map h hal hbl (by rw [hax, hbx])
    have hk1 : (a.sectionId, a.subjectId) = k1 := by simpa using hak
    have hk2 : (b.sectionId, b.subjectId) = k2 := by simpa using hbk
    exact hne (by rw [← hk1, hab, hk2])

theorem AInv_assignLoop (slots : List TSlot) (tid need : Nat) :
    ∀ (ms : List TSlot) (cnt : Nat) (st : AState),
      AInv slots st →
      (ms.map TSlot.id).Nodup →
      (∀ s ∈ ms, s.id ∉ st.assigned) →
      (∀ s ∈ ms, s ∈ slots) →
      AInv slots (assignLoop tid need ms cnt st) := by
  intro ms
  induction ms with
  | nil => intro cnt st hinv _ _ _; exact hinv
  | cons s rest ih =>
    intro cnt st hinv hnd hfresh hsub
    unfold assignLoop
    by_cases hstop : need ≤ cnt
    · rw [if_pos hstop]; exact hinv
    · rw [if_neg hstop]
      cases hconf : (st.tts tid).contains s.timeslotId with
      | true =>
        rw [if_pos rfl]
        exact ih cnt st hinv (by simpa using hnd.of_cons)
          (fun x hx => hfresh x (by simp [hx])) (fun x hx => hsub x (by simp [hx]))
      | false =>
        rw [if_neg (by simp)]
        obtain ⟨h1, h2, h3, h4, h5⟩ := hinv
        simp only [List.map_cons, List.nodup_cons] at hnd
        have hsid : s.id ∉ st.assigned := hfresh s (by simp)
        have htsnot : s.timeslotId ∉ st.tts tid := by
          intro hmem
          have : (st.tts tid).contains s.timeslotId = true := List.elem_iff.mpr hmem
          rw [this] at hconf
          cases hconf
        refine ih (cnt + 1) _ ⟨?_, ?_, ?_, ?_, ?_⟩ hnd.2 ?_ ?_
        · intro tid2
          simp only [List.filter_append]
          cases hteq : ((s, tid) : TSlot × Nat).2 == tid2 with
          | false =>
            have hnilf : List.filter (fun pr => pr.2 == tid2) [(s, tid)] = [] := by
              simp only [List.filter_cons, hteq]
              rfl
            rw [hnilf, List.append_nil]
            exact h1 tid2
          | true =>
            have htid : tid = tid2 := by simpa using hteq
            have hsingf : List.filter (fun pr => pr.2 == tid2) [(s, tid)] = [(s, tid)] := by
              simp only [List.filter_cons, hteq]
              rfl
            rw [hsingf, List.map_append]
            simp only [List.map_cons, List.map_nil]
            rw [List.nodup_append]
            refine ⟨h1 tid2, by simp, ?_⟩
            intro x hx hx2
            simp only [List.mem_singleton] at hx2
            obtain ⟨pr, hpr, hprx⟩ := List.mem_map.mp hx
            obtain ⟨hprs, hprt⟩ := List.mem_filter.mp hpr
            have : pr.1.timeslotId ∈ st.tts tid := by
              rw [show tid = pr.2 by rw [htid]; exact ((by simpa using hprt : pr.2 = tid2)).symm]
              exact h2 pr hprs
            rw [hprx, hx2] at this
            exact htsnot this
        · intro pr hpr
          rcases List.mem_append.mp hpr with hq | hq
          · by_cases he : pr.2 = tid
            · simp only [he, if_pos rfl]
              exact List.mem_append_left _ (he ▸ h2 pr hq)
            · simp only [if_neg he]
              exact h2 pr hq
          · simp only [List.mem_singleton] at hq
            rw [hq]
            simp
        · rw [List.map_append]
          simp only [List.map_cons, List.map_nil]
          rw [List.nodup_append]
          refine ⟨h3, by simp, ?_⟩
          intro x hx hx2
          simp only [List.mem_singleton] at hx2
          obtain ⟨pr, hpr, hprx⟩ := List.mem_map.mp hx
          have : pr.1.id ∈ st.assigned := h4 pr hpr
          rw [hprx, hx2] at this
          exact hsid this
        · intro pr hpr
          rcases List.mem_append.mp hpr with hq | hq
          · exact List.mem_append_left _ (h4 pr hq)
          · simp only [List.mem_singleton] at hq
            rw [hq]
            simp
        · intro pr hpr
          rcases List.mem_append.mp hpr with hq | hq
          · exact h5 pr hq
          · simp only [List.mem_singleton] at hq
            rw [hq]
            exact hsub s (by simp)
        · intro x hx
          simp only [List.mem_append, List.mem_singleton]
          intro hmem
          rcases hmem with hmem | hmem
          · exact hfresh x (by simp [hx]) hmem
          · exact hnd.1 (hmem ▸ List.mem_map_of_mem TSlot.id hx)
        · intro x hx
          exact hsub x (by simp [hx])

theorem find_matching_nodup {subjects : Nat → Subj} {slots : List TSlot}
    (pref : Pref) (assigned : List Nat) (hids : (slots.map TSlot.id).Nodup) :
    ((find_matching_slots subjects slots pref assigned).map TSlot.id).Nodup := by
  apply regroup_nodup_ids
  have hsub : List.Sublist
      ((slots.filter (slotMatches subjects pref assigned)).map TSlot.id)
      (slots.map TSlot.id) := (List.filter_sublist slots).map TSlot.id
  exact List.Nodup.sublist hsub hids

theorem find_matching_fresh {subjects : Nat → Subj} {slots : List TSlot}
    (pref : Pref) (assigned : List Nat) :
    ∀ s ∈ find_matching_slots subjects slots pref assigned, s.id ∉ assigned := by
  intro s hs hmem
  have hf := mem_of_mem_regroup hs
  have hm := (List.mem_filter.mp hf).2
  unfold slotMatches at hm
  simp only [Bool.and_eq_true, Bool.not_eq_true'] at hm
  have : assigned.contains s.id = true := List.elem_iff.mpr hmem
  rw [this] at hm
  exact absurd hm.1.1 (by simp)

theorem find_matching_sub {subjects : Nat → Subj} {slots : List TSlot}
    (pref : Pref) (assigned : List Nat) :
    ∀ s ∈ find_matching_slots subjects slots pref assigned, s ∈ slots := by
  intro s hs
  exact (List.mem_filter.mp (mem_of_mem_regroup hs)).1

theorem AInv_processPref (subjects : Nat → Subj) (slots : List TSlot)
    (hids : (slots.map TSlot.id).Nodup) (st : AState) (pref : Pref)
    (hinv : AInv slots st) : AInv slots (processPref subjects slots st pref) := by
  unfold processPref
  refine AInv_assignLoop slots pref.teacherId pref.sections_count
    (find_matching_slots subjects slots pref st.assigned) 0 st hinv
    (find_matching_nodup pref st.assigned hids)
    (find_matching_fresh pref st.assigned)
    (find_matching_sub pref st.assigned)

theorem AInv_foldl (subjects : Nat → Subj) (slots : List TSlot)
    (hids : (slots.map TSlot.id).Nodup) :
    ∀ (prefs : List Pref) (st : AState), AInv slots st →
      AInv slots (prefs.foldl (processPref subjects slots) st) := by
  intro prefs
  induction prefs with
  | nil => intro st h; exact h
  | cons p rest ih =>
    intro st h
    simp only [List.foldl_cons]
    exact ih _ (AInv_processPref subjects slots hids st p h)

/-- C6: in one run of `assign_teachers`, (a) no teacher ends up with two
saved assignments referencing the same `TimeSlot`: the per-teacher saved
timeslot ids are pairwise distinct, exactly the conflict check the loop
performs on `slot.timeslot.id`; and (b) no slot is ever assigned twice: a
placement an earlier (more specific) preference took is never reassigned by
a later one (saved slot primary keys are pairwise distinct). -/
theorem assign_teachers_spec (subjects : Nat → Subj) (slots : List TSlot)
    (prefs : List Pref)
    (hids : (slots.map TSlot.id).Nodup) :
    (∀ tid : Nat,
      ((((assign_teachers subjects slots prefs).saves.filter
        (fun pr => pr.2 == tid)).map
          (fun pr => pr.1.timeslotId)).Nodup)) ∧
    (((assign_teachers subjects slots prefs).saves.map
      (fun pr => pr.1.id)).Nodup) := by
  have hinit : AInv slots ⟨[], fun _ => [], []⟩ := by
    unfold AInv
    refine ⟨?_, ?_, ?_, ?_, ?_⟩
    · intro tid; simp
    · intro pr hpr; cases hpr
    · simp
    · intro pr hpr; cases hpr
    · intro pr hpr; cases hpr
  have hinv := AInv_foldl subjects slots hids (sortPrefs prefs) _ hinit
  obtain ⟨h1, _, h3, _, _⟩ := hinv
  unfold assign_teachers
  exact ⟨h1, h3⟩

def taWitnessSubjects : Nat → Subj :=
  fun sid => if sid = 2 then ⟨"PH301", true⟩ else ⟨"CS201", false⟩

/-- Two theory placements in the same timeslot (id 10), plus a lab placement
whose distinct `TimeSlot` row (id 20) shares the (day, start) pair with
the theory rows, as in the seeded catalog. -/
def taWitnessSlots : List TSlot :=
  [⟨1, 1, 1, 10, 0, 480⟩, ⟨2, 1, 2, 10, 0, 480⟩, ⟨3, 2, 1, 20, 0, 480⟩]

def taWitnessPrefs : List Pref :=
  [⟨1, "Alice", "CS201", 2, true, false⟩, ⟨2, "Bob", "*", 10, true, true⟩]

/-- Witness for `assign_teachers_spec`: two placements share timeslot 10,
and a lab placement shares (day, start) with them under a different
timeslot id — no teacher saves one timeslot id twice, no slot id repeats. -/
theorem assign_teachers_spec_witness :
    (∀ tid : Nat,
      ((((assign_teachers taWitnessSubjects taWitnessSlots taWitnessPrefs).saves.filter
        (fun pr => pr.2 == tid)).map
          (fun pr => pr.1.timeslotId)).Nodup)) ∧
    (((assign_teachers taWitnessSubjects taWitnessSlots taWitnessPrefs).saves.map
      (fun pr => pr.1.id)).Nodup) :=
  assign_teachers_spec taWitnessSubjects taWitnessSlots taWitnessPrefs
    (by decide)

/-! ## Counting lemmas for the exact-demand and distinct-day proofs -/

theorem countP_flatMap_eq_sum {α β : Type} (l : List α) (f : α → List β)
    (p : β → Bool) :
    (l.flatMap f).countP p = (l.map (fun a => (f a).countP p)).sum := by
  induction l with
  | nil => rfl
  | cons x rest ih =>
    rw [List.flatMap_cons, List.countP_append, List.map_cons, List.sum_cons, ih]

theorem countP_eq_sum_b2n {α : Type} (l : List α) (p : α → Bool) :
    l.countP p = (l.map (fun a => b2n (p a))).sum := by
  induction l with
  | nil => rfl
  | cons x rest ih =>
    rw [List.countP_cons, List.map_cons, List.sum_cons, ih]
    unfold b2n
    omega

theorem sum_le_sum_pointwise {α : Type} (l : List α) (f g : α → Nat)
    (h : ∀ x ∈ l, g x ≤ f x) : (l.map g).sum ≤ (l.map f).sum := by
  induction l with
  | nil => exact Nat.le_refl _
  | cons x rest ih =>
    simp only [List.map_cons, List.sum_cons]
    have := h x (by simp)
    have := ih (fun y hy => h y (by simp [hy]))
    omega

theorem sum_lt_sum_of_excess {α : Type} (l : List α) (f g : α → Nat) (d : α)
    (h : ∀ x ∈ l, g x ≤ f x) (hd : d ∈ l) (hexc : g d + 1 ≤ f d) :
    (l.map g).sum + 1 ≤ (l.map f).sum := by
  induction l with
  | nil => cases hd
  | cons x rest ih =>
    simp only [List.map_cons, List.sum_cons]
    rcases List.mem_cons.mp hd with hdx | hdx
    · have hsum := sum_le_sum_pointwise rest f g (fun y hy => h y (by simp [hy]))
      rw [hdx] at hexc
      omega
    · have hx := h x (by simp)
      have := ih (fun y hy => h y (by simp [hy])) hdx
      omega

theorem two_le_countP {α : Type} (l : List α) (p : α → Bool) (a b : α)
    (ha : a ∈ l) (hb : b ∈ l) (hab : a ≠ b) (hpa : p a = true)
    (hpb : p b = true) : 2 ≤ l.countP p := by
  induction l with
  | nil => cases ha
  | cons x rest ih =>
    rw [List.countP_cons]
    rcases List.mem_cons.mp ha with hax | hax
    · have hbrest : b ∈ rest := by
        rcases List.mem_cons.mp hb with hbx | hbx
        · exact absurd (hax.trans hbx.symm) hab
        · exact hbx
      have h1 : 1 ≤ rest.countP p := by
        rw [countP_eq_sum_b2n]
        have : b2n (p b) = 1 := by rw [hpb]; rfl
        calc 1 = b2n (p b) := this.symm
        _ ≤ (rest.map (fun a => b2n (p a))).sum := by
            exact List.single_le_sum (fun _ _ => Nat.zero_le _) _
              (List.mem_map_of_mem _ hbrest)
      rw [← hax, hpa]
      simp only [if_true]
      omega
    · rcases List.mem_cons.mp hb with hbx | hbx
      · have h1 : 1 ≤ rest.countP p := by
          rw [countP_eq_sum_b2n]
          have : b2n (p a) = 1 := by rw [hpa]; rfl
          calc 1 = b2n (p a) := this.symm
          _ ≤ (rest.map (fun a => b2n (p a))).sum := by
              exact List.single_le_sum (fun _ _ => Nat.zero_le _) _
                (List.mem_map_of_mem _ hax)
        rw [← hbx, hpb]
        simp only [if_true]
        omega
      · have := ih hax hbx
        omega

theorem filterMap_if_eq_map_filter {α β : Type} (l : List α) (p : α → Bool)
    (g : α → β) :
    l.filterMap (fun x => if p x then some (g x) else none) =
      (l.filter p).map g := by
  induction l with
  | nil => rfl
  | cons x rest ih =>
    cases hp : p x with
    | true => simp [List.filterMap_cons, List.filter_cons, hp, ih]
    | false => simp [List.filterMap_cons, List.filter_cons, hp, ih]

/-! ## C3: distinct, non-adjacent theory days -/

theorem mem_theoryRangeKeysOnDay_fields {I : SolverInput} {sec code d : String}
    {k : AKey} (h : k ∈ theoryRangeKeysOnDay I sec code d) :
    k.sec = sec ∧ k.code = code ∧ k.day = d ∧ k.slot ∈ I.theorySlots ∧
      ¬(k.day = "Friday" ∧ k.slot = 3) ∧ k.room ∈ I.theoryRooms := by
  unfold theoryRangeKeysOnDay at h
  obtain ⟨t, ht, hk2⟩ := List.mem_flatMap.mp h
  obtain ⟨r, hr, hk3⟩ := List.mem_map.mp hk2
  obtain ⟨htmem, htcond⟩ := List.mem_filter.mp ht
  subst hk3
  refine ⟨rfl, rfl, rfl, htmem, ?_, hr⟩
  intro ⟨hfd, hs3⟩
  simp only at hfd hs3
  rw [hfd, hs3] at htcond
  simp at htcond

theorem mem_theoryRangeKeys_split {I : SolverInput} {sec code : String}
    {k : AKey} (h : k ∈ theoryRangeKeys I sec code) :
    k.day ∈ I.days ∧ k ∈ theoryRangeKeysOnDay I sec code k.day := by
  unfold theoryRangeKeys at h
  obtain ⟨d, hd, hk⟩ := List.mem_flatMap.mp h
  have hday := (mem_theoryRangeKeysOnDay_fields hk).2.2.1
  rw [hday]
  exact ⟨hd, hk⟩

theorem mem_labRangeKeys_fields {I : SolverInput} {sec code : String}
    {k : AKey} (h : k ∈ labRangeKeys I sec code) :
    k.sec = sec ∧ k.code = code ∧ k.day ∈ I.days ∧ k.slot ∈ I.labSlots ∧
      k.room ∈ lab_rooms_for I code := by
  unfold labRangeKeys at h
  obtain ⟨d, hd, hk2⟩ := List.mem_flatMap.mp h
  obtain ⟨t, ht, hk3⟩ := List.mem_flatMap.mp hk2
  obtain ⟨r, hr, hk4⟩ := List.mem_map.mp hk3
  subst hk4
  exact ⟨rfl, rfl, hd, ht, hr⟩

theorem mem_writesFor_theory {I : SolverInput} {v : TVal} {sec : String}
    {c : Course} {w : Write} (hlab : c.is_lab = false)
    (h : w ∈ writesFor I v sec c) :
    ∃ k ∈ theoryRangeKeys I sec c.code, isOn I v k = true ∧
      w = ⟨"theory", k.room, k.day, k.slot, sec, c.code, none⟩ := by
  unfold writesFor at h
  rw [hlab] at h
  simp only [Bool.false_eq_true, if_neg, not_false_iff] at h
  obtain ⟨k, hkmem, hk⟩ := List.mem_filterMap.mp h
  cases hon : isOn I v k with
  | false => rw [hon] at hk; simp at hk
  | true =>
    rw [hon, if_pos rfl] at hk
    injection hk with hk2
    exact ⟨k, hkmem, hon, hk2.symm⟩

theorem mem_writesFor_lab {I : SolverInput} {v : TVal} {sec : String}
    {c : Course} {w : Write} (hlab : c.is_lab = true)
    (h : w ∈ writesFor I v sec c) :
    ∃ k ∈ labRangeKeys I sec c.code, isOn I v k = true ∧
      w = ⟨"lab", k.room, k.day, k.slot, sec, c.code, none⟩ := by
  unfold writesFor at h
  rw [hlab, if_pos rfl] at h
  obtain ⟨k, hkmem, hk⟩ := List.mem_filterMap.mp h
  cases hon : isOn I v k with
  | false => rw [hon] at hk; simp at hk
  | true =>
    rw [hon, if_pos rfl] at hk
    injection hk with hk2
    exact ⟨k, hkmem, hon, hk2.symm⟩

theorem writesFor_fields {I : SolverInput} {v : TVal} {sec : String} {c : Course}
    {w : Write} (h : w ∈ writesFor I v sec c) :
    w.sec = sec ∧ w.code = c.code ∧ w.cohort = none := by
  cases hlab : c.is_lab with
  | true =>
    obtain ⟨k, _, _, hw⟩ := mem_writesFor_lab hlab h
    rw [hw]
    exact ⟨rfl, rfl, rfl⟩
  | false =>
    obtain ⟨k, _, _, hw⟩ := mem_writesFor_theory hlab h
    rw [hw]
    exact ⟨rfl, rfl, rfl⟩

theorem mem_normalWrites_pin {I : SolverInput} {v : TVal} {sec : String}
    {c : Course} {w : Write}
    (hPairs : ((pairList I).map (fun p => (p.1, p.2.code))).Nodup)
    (hp : (sec, c) ∈ pairList I)
    (hw : w ∈ normalWrites I v) (hsec : w.sec = sec) (hcode : w.code = c.code) :
    w ∈ writesFor I v sec c := by
  unfold normalWrites at hw
  obtain ⟨p, hpmem, hwp⟩ := List.mem_flatMap.mp hw
  obtain ⟨hf1, hf2, _⟩ := writesFor_fields hwp
  have hproj : ((p.1, p.2.code) : String × String) = (sec, c.code) := by
    rw [← hf1, ← hf2, hsec, hcode]
  have hpe : p = (sec, c) :=
    List.inj_on_of_nodup_map hPairs hpmem hp hproj
  rw [hpe] at hwp
  exact hwp

theorem b2n_le_one (b : Bool) : b2n b ≤ 1 := by
  unfold b2n; split <;> omega

theorem one_le_countP_of_mem {α : Type} {l : List α} {p : α → Bool} {a : α}
    (ha : a ∈ l) (hpa : p a = true) : 1 ≤ l.countP p := by
  rw [countP_eq_sum_b2n]
  have h1 : b2n (p a) = 1 := by rw [hpa]; rfl
  calc 1 = b2n (p a) := h1.symm
  _ ≤ (l.map (fun x => b2n (p x))).sum :=
      List.single_le_sum (fun _ _ => Nat.zero_le _) _ (List.mem_map_of_mem _ ha)

/-- C3: every solver outcome satisfying the posted exact-demand and
distinct-day constraints places a non-cohort theory course with
`times_needed > 1` on pairwise distinct days for each section, and no two of
those days are adjacent in the `DAYS` order (no two extraction records of the
same (section, course) share a day or sit on consecutive days). -/
theorem theory_placements_distinct_nonadjacent_days (I : SolverInput) (v : TVal)
    (sec : String) (c : Course)
    (hTN : timesNeededOk I v) (hDL : dayLinkOk I v)
    (hPairs : ((pairList I).map (fun p => (p.1, p.2.code))).Nodup)
    (hp : (sec, c) ∈ pairList I) (hlab : c.is_lab = false)
    (hn : 1 < c.times_needed) :
    ∀ w1 ∈ normalWrites I v, ∀ w2 ∈ normalWrites I v,
      w1.sec = sec → w1.code = c.code → w2.sec = sec → w2.code = c.code →
      w1 ≠ w2 →
      w1.day ≠ w2.day ∧
      (w1.day, w2.day) ∉ I.days.zip I.days.tail ∧
      (w2.day, w1.day) ∉ I.days.zip I.days.tail := by
  intro w1 hw1 w2 hw2 hs1 hc1 hs2 hc2 hne
  obtain ⟨k1, hk1, hon1, hwe1⟩ :=
    mem_writesFor_theory hlab (mem_normalWrites_pin hPairs hp hw1 hs1 hc1)
  obtain ⟨k2, hk2, hon2, hwe2⟩ :=
    mem_writesFor_theory hlab (mem_normalWrites_pin hPairs hp hw2 hs2 hc2)
  have hkne : k1 ≠ k2 := by
    intro he
    rw [he] at hwe1
    rw [hwe1, hwe2] at hne
    exact hne rfl
  have hsplit1 := mem_theoryRangeKeys_split hk1
  have hsplit2 := mem_theoryRangeKeys_split hk2
  have hd1 : w1.day = k1.day := by rw [hwe1]
  have hd2 : w2.day = k2.day := by rw [hwe2]
  have hdl := hDL (sec, c) hp hlab
  have htn := hTN (sec, c) hp
  rw [if_neg (by simp [hlab])] at htn
  have hsumf : (I.days.map (fun d =>
      (theoryRangeKeysOnDay I sec c.code d).countP (isOn I v))).sum =
      c.times_needed := by
    rw [← countP_flatMap_eq_sum]
    exact htn
  have hsumg : (I.days.map (fun d => b2n (v.dayA sec c.code d))).sum =
      c.times_needed := by
    rw [← countP_eq_sum_b2n]
    exact hdl.1
  have hpw : ∀ d ∈ I.days, b2n (v.dayA sec c.code d) ≤
      (theoryRangeKeysOnDay I sec c.code d).countP (isOn I v) :=
    fun d hd => (hdl.2.1 d hd).1
  have hforced : ∀ k : AKey, k ∈ theoryRangeKeys I sec c.code →
      isOn I v k = true → v.dayA sec c.code k.day = true := by
    intro k hk hon
    have hs := mem_theoryRangeKeys_split hk
    have h1 : 1 ≤ (theoryRangeKeysOnDay I sec c.code k.day).countP (isOn I v) :=
      one_le_countP_of_mem hs.2 hon
    have hup := (hdl.2.1 k.day hs.1).2
    cases hA : v.dayA sec c.code k.day with
    | true => rfl
    | false =>
      exfalso
      rw [hA] at hup
      unfold b2n at hup
      simp only [Bool.false_eq_true, if_neg, not_false_iff, Nat.mul_zero] at hup
      omega
  have hdayne : w1.day ≠ w2.day := by
    intro heq
    have hdd : k2.day = k1.day := by rw [← hd1, ← hd2, heq]
    have h2 : 2 ≤ (theoryRangeKeysOnDay I sec c.code k1.day).countP (isOn I v) :=
      two_le_countP _ _ k1 k2 hsplit1.2 (hdd ▸ hsplit2.2) hkne hon1 hon2
    have hb1 := b2n_le_one (v.dayA sec c.code k1.day)
    have hbig := sum_lt_sum_of_excess I.days
      (fun d => (theoryRangeKeysOnDay I sec c.code d).countP (isOn I v))
      (fun d => b2n (v.dayA sec c.code d)) k1.day hpw hsplit1.1
      (by show b2n (v.dayA sec c.code k1.day) + 1 ≤
            (theoryRangeKeysOnDay I sec c.code k1.day).countP (isOn I v)
          omega)
    rw [hsumf, hsumg] at hbig
    omega
  refine ⟨hdayne, ?_, ?_⟩
  · intro hmem
    have hc := hdl.2.2 hn (w1.day, w2.day) hmem
    have hA1 : v.dayA sec c.code w1.day = true := by
      rw [hd1]; exact hforced k1 hk1 hon1
    have hA2 : v.dayA sec c.code w2.day = true := by
      rw [hd2]; exact hforced k2 hk2 hon2
    simp only at hc
    rw [hA1, hA2] at hc
    unfold b2n at hc
    simp at hc
  · intro hmem
    have hc := hdl.2.2 hn (w2.day, w1.day) hmem
    have hA1 : v.dayA sec c.code w1.day = true := by
      rw [hd1]; exact hforced k1 hk1 hon1
    have hA2 : v.dayA sec c.code w2.day = true := by
      rw [hd2]; exact hforced k2 hk2 hon2
    simp only at hc
    rw [hA1, hA2] at hc
    unfold b2n at hc
    simp at hc

def c3WitCourse : Course := ⟨"CS101", "Intro", false, 2⟩

/-- One section, one theory course needing two meetings over the full
Monday–Saturday week. -/
def c3WitInput : SolverInput :=
  { selected := [1]
    courses := fun sem => if sem = 1 then [c3WitCourse] else []
    sectionSizes := fun _ => 10
    usageTheory := []
    usageLab := []
    days := ["Monday", "Tuesday", "Wednesday", "Thursday", "Friday", "Saturday"]
    theorySlots := [0]
    labSlots := []
    labOverlap := []
    theoryRooms := ["R1"]
    labRooms := []
    specialLabRooms := []
    sectionSize := 50
    programCode := "A"
    cohortMap := []
    enableCohort := false
    maxHoursPerDay := 8
    workingDaysPerWeek := 6
    minGapMinutes := 15
    noClassesAfterHour := none }

/-- A valuation placing the course on Monday and Wednesday. -/
def c3WitVal : TVal :=
  { a := fun k => decide (k = ⟨"S1A1", "CS101", "Monday", 0, "R1"⟩) ||
      decide (k = ⟨"S1A1", "CS101", "Wednesday", 0, "R1"⟩)
    dayA := fun sec code d => decide (sec = "S1A1") && decide (code = "CS101") &&
      (decide (d = "Monday") || decide (d = "Wednesday"))
    cohortA := fun _ _ _ => false }

def c3WitW1 : Write := ⟨"theory", "R1", "Monday", 0, "S1A1", "CS101", none⟩

def c3WitW2 : Write := ⟨"theory", "R1", "Wednesday", 0, "S1A1", "CS101", none⟩

theorem theory_placements_distinct_nonadjacent_days_witness :
    c3WitW1.day ≠ c3WitW2.day ∧
    (c3WitW1.day, c3WitW2.day) ∉ c3WitInput.days.zip c3WitInput.days.tail ∧
    (c3WitW2.day, c3WitW1.day) ∉ c3WitInput.days.zip c3WitInput.days.tail :=
  theory_placements_distinct_nonadjacent_days c3WitInput c3WitVal "S1A1"
    c3WitCourse (by unfold timesNeededOk; decide) (by unfold dayLinkOk; decide)
    (by decide) (by decide) (by decide)
    (by decide) c3WitW1 (by decide) c3WitW2 (by decide) (by decide) (by decide)
    (by decide) (by decide) (by decide)

/-! ## C1: exact demand in the returned schedule_map -/

theorem map_if_id (m : ScheduleMap) (k : String × Nat × String)
    (val : String × String × Option String)
    (h : ∀ e ∈ m, e.1 ≠ k) :
    m.map (fun e => if e.1 = k then (k, val) else e) = m := by
  induction m with
  | nil => rfl
  | cons x rest ih =>
    rw [List.map_cons, if_neg (h x (by simp)),
      ih (fun e he => h e (by simp [he]))]

theorem any_key_false (m : ScheduleMap) (k : String × Nat × String)
    (h : ∀ e ∈ m, e.1 ≠ k) :
    m.any (fun e => decide (e.1 = k)) = false := by
  induction m with
  | nil => rfl
  | cons x rest ih =>
    rw [List.any_cons, ih (fun e he => h e (by simp [he]))]
    simp [h x (by simp)]

theorem dinsert_append_left (m r : ScheduleMap) (k : String × Nat × String)
    (val : String × String × Option String) (h : ∀ e ∈ m, e.1 ≠ k) :
    dinsert (m ++ r) k val =
      m ++ (if r.any (fun e => decide (e.1 = k)) then
              r.map (fun e => if e.1 = k then (k, val) else e)
            else r ++ [(k, val)]) := by
  unfold dinsert
  rw [List.any_append, any_key_false m k h, Bool.false_or]
  cases hr : r.any (fun e => decide (e.1 = k)) with
  | true =>
    rw [if_pos rfl, if_pos rfl, List.map_append, map_if_id m k val h]
  | false =>
    rw [if_neg (by simp), if_neg (by simp), List.append_assoc]

theorem foldl_dinsert_fresh : ∀ (batch : List Write) (m : ScheduleMap),
    (batch.map dkey).Nodup →
    (∀ w ∈ batch, ∀ e ∈ m, e.1 ≠ dkey w) →
    batch.foldl (fun acc w => dinsert acc (dkey w) (dval w)) m =
      m ++ batch.map (fun w => (dkey w, dval w)) := by
  intro batch
  induction batch with
  | nil => intro m _ _; simp
  | cons w rest ih =>
    intro m hnd hfresh
    rw [List.foldl_cons]
    have hstep : dinsert m (dkey w) (dval w) = m ++ [(dkey w, dval w)] := by
      unfold dinsert
      rw [any_key_false m (dkey w) (fun e he => hfresh w (by simp) e he)]
      simp
    rw [List.map_cons, List.nodup_cons] at hnd
    rw [hstep, ih (m ++ [(dkey w, dval w)]) hnd.2 ?fresh, List.map_cons,
      List.append_assoc, List.singleton_append]
    case fresh =>
      intro w' hw' e he
      rcases List.mem_append.mp he with hem | hex
      · exact hfresh w' (by simp [hw']) e hem
      · have hee := List.mem_singleton.mp hex
        subst hee
        intro hc
        simp only at hc
        exact hnd.1 (by rw [hc]; exact List.mem_map_of_mem _ hw')

theorem foldl_dinsert_entries : ∀ (batch : List Write) (m r : ScheduleMap)
    (P : (String × String × Option String) → Prop),
    (∀ w ∈ batch, ∀ e ∈ m, e.1 ≠ dkey w) →
    (∀ e ∈ r, P e.2) →
    (∀ w ∈ batch, P (dval w)) →
    ∃ r2, (batch.foldl (fun acc w => dinsert acc (dkey w) (dval w)) (m ++ r)) =
        m ++ r2 ∧ ∀ e ∈ r2, P e.2 := by
  intro batch
  induction batch with
  | nil => intro m r P _ hr _; exact ⟨r, by simp, hr⟩
  | cons w rest ih =>
    intro m r P hfresh hr hP
    rw [List.foldl_cons, dinsert_append_left m r (dkey w) (dval w)
      (fun e he => hfresh w (by simp) e he)]
    cases hany : r.any (fun e => decide (e.1 = dkey w)) with
    | true =>
      rw [if_pos rfl]
      apply ih m _ P (fun w' hw' e he => hfresh w' (by simp [hw']) e he) ?hmap
        (fun w' hw' => hP w' (by simp [hw']))
      case hmap =>
        intro e he
        obtain ⟨e0, he0, hee⟩ := List.mem_map.mp he
        by_cases hk : e0.1 = dkey w
        · rw [if_pos hk] at hee
          rw [← hee]
          exact hP w (by simp)
        · rw [if_neg hk] at hee
          rw [← hee]
          exact hr e0 he0
    | false =>
      rw [if_neg (by simp)]
      apply ih m _ P (fun w' hw' e he => hfresh w' (by simp [hw']) e he) ?happ
        (fun w' hw' => hP w' (by simp [hw']))
      case happ =>
        intro e he
        rcases List.mem_append.mp he with hem | hex
        · exact hr e hem
        · have hee := List.mem_singleton.mp hex
          subst hee
          exact hP w (by simp)

theorem nodup_flatMap_of {α β : Type} (l : List α) (f : α → List β)
    (h1 : ∀ a ∈ l, (f a).Nodup)
    (h2 : l.Pairwise (fun a b => ∀ x ∈ f a, x ∉ f b)) :
    (l.flatMap f).Nodup := by
  induction l with
  | nil => simp
  | cons a rest ih =>
    rw [List.flatMap_cons]
    refine List.Nodup.append (h1 a (by simp))
      (ih (fun b hb => h1 b (by simp [hb])) (List.Pairwise.of_cons h2)) ?_
    intro x hxa hxr
    obtain ⟨b, hb, hxb⟩ := List.mem_flatMap.mp hxr
    exact (List.rel_of_pairwise_cons h2 hb) x hxa hxb

theorem nodup_flatMap3 {α β γ δ : Type} (la : List α) (lbf : α → List β)
    (lc : List γ) (mk3 : α → β → γ → δ)
    (hinj : ∀ a1 b1 c1 a2 b2 c2, mk3 a1 b1 c1 = mk3 a2 b2 c2 →
      a1 = a2 ∧ b1 = b2 ∧ c1 = c2)
    (ha : la.Nodup) (hb : ∀ a, (lbf a).Nodup) (hc : lc.Nodup) :
    (la.flatMap (fun a => (lbf a).flatMap (fun b =>
      lc.map (fun c => mk3 a b c)))).Nodup := by
  apply nodup_flatMap_of
  · intro a _
    apply nodup_flatMap_of
    · intro b _
      exact nodup_map_of_inj lc (fun c => c) (fun c => mk3 a b c)
        (by simpa using hc)
        (fun c1 _ c2 _ he => (hinj a b c1 a b c2 he).2.2)
    · refine List.Pairwise.imp ?_ (hb a)
      intro b1 b2 hne x hx1 hx2
      obtain ⟨c1, _, he1⟩ := List.mem_map.mp hx1
      obtain ⟨c2, _, he2⟩ := List.mem_map.mp hx2
      rw [← he1] at he2
      exact hne ((hinj a b2 c2 a b1 c1 he2).2.1).symm
  · refine List.Pairwise.imp ?_ ha
    intro a1 a2 hne x hx1 hx2
    obtain ⟨b1, _, hb1⟩ := List.mem_flatMap.mp hx1
    obtain ⟨c1, _, he1⟩ := List.mem_map.mp hb1
    obtain ⟨b2, _, hb2⟩ := List.mem_flatMap.mp hx2
    obtain ⟨c2, _, he2⟩ := List.mem_map.mp hb2
    rw [← he1] at he2
    exact hne ((hinj a2 b2 c2 a1 b1 c1 he2).1).symm

theorem akey_eq_of_fields {k1 k2 : AKey} (h1 : k1.sec = k2.sec)
    (h2 : k1.code = k2.code) (h3 : k1.day = k2.day) (h4 : k1.slot = k2.slot)
    (h5 : k1.room = k2.room) : k1 = k2 := by
  cases k1
  cases k2
  simp_all

theorem theoryRangeKeys_nodup (I : SolverInput) (sec code : String)
    (hD : I.days.Nodup) (hT : I.theorySlots.Nodup) (hR : I.theoryRooms.Nodup) :
    (theoryRangeKeys I sec code).Nodup := by
  unfold theoryRangeKeys theoryRangeKeysOnDay
  exact nodup_flatMap3 I.days
    (fun d => I.theorySlots.filter (fun t => !(d == "Friday" && t == 3)))
    I.theoryRooms (fun d t r => AKey.mk sec code d t r)
    (by intro a1 b1 c1 a2 b2 c2 h
        injection h with g1 g2 g3 g4 g5
        exact ⟨g3, g4, g5⟩)
    hD (fun d => hT.filter _) hR

theorem labRangeKeys_nodup (I : SolverInput) (sec code : String)
    (hD : I.days.Nodup) (hL : I.labSlots.Nodup)
    (hR : (lab_rooms_for I code).Nodup) :
    (labRangeKeys I sec code).Nodup := by
  unfold labRangeKeys
  exact nodup_flatMap3 I.days (fun _ => I.labSlots)
    (lab_rooms_for I code) (fun d t r => AKey.mk sec code d t r)
    (by intro a1 b1 c1 a2 b2 c2 h
        injection h with g1 g2 g3 g4 g5
        exact ⟨g3, g4, g5⟩)
    hD (fun _ => hL) hR

theorem lab_rooms_for_subset (I : SolverInput) (code : String) :
    ∀ r ∈ lab_rooms_for I code, r ∈ combined_labs I := by
  intro r hr
  unfold lab_rooms_for at hr
  unfold combined_labs
  rw [List.mem_dedup]
  cases hget : alget I.specialLabRooms code with
  | some l =>
    rw [hget] at hr
    apply List.mem_append_right
    unfold all_special_labs
    exact List.mem_flatMap.mpr ⟨(code, l), alget_mem hget, hr⟩
  | none =>
    rw [hget] at hr
    exact List.mem_append_left _ hr

theorem writesFor_dkeys_theory (I : SolverInput) (v : TVal) (sec : String)
    (c : Course) (hlab : c.is_lab = false) :
    (writesFor I v sec c).map dkey =
      ((theoryRangeKeys I sec c.code).filter (isOn I v)).map
        (fun k => (k.day, k.slot, k.room)) := by
  unfold writesFor
  rw [hlab]
  simp only [Bool.false_eq_true, if_neg, not_false_iff]
  rw [filterMap_if_eq_map_filter, List.map_map]
  rfl

theorem writesFor_dkeys_lab (I : SolverInput) (v : TVal) (sec : String)
    (c : Course) (hlab : c.is_lab = true) :
    (writesFor I v sec c).map dkey =
      ((labRangeKeys I sec c.code).filter (isOn I v)).map
        (fun k => (k.day, k.slot, k.room)) := by
  unfold writesFor
  rw [hlab, if_pos rfl]
  rw [filterMap_if_eq_map_filter, List.map_map]
  rfl

theorem writes_dkey_disjoint (I : SolverInput) (v : TVal)
    (hTM : theoryRoomMutexOk I v) (hLM : labRoomMutexOk I v)
    (hTL : ∀ r ∈ I.theoryRooms, r ∉ combined_labs I)
    {p q : String × Course} (hpm : p ∈ pairList I) (hqm : q ∈ pairList I)
    (hne : p ≠ q) :
    ∀ x ∈ (writesFor I v p.1 p.2).map dkey,
      x ∉ (writesFor I v q.1 q.2).map dkey := by
  intro x hx1 hx2
  obtain ⟨w1, hw1, hx1e⟩ := List.mem_map.mp hx1
  obtain ⟨w2, hw2, hx2e⟩ := List.mem_map.mp hx2
  rw [← hx1e] at hx2e
  cases hl1 : p.2.is_lab with
  | false =>
    obtain ⟨k1, hk1, hon1, hwe1⟩ := mem_writesFor_theory hl1 hw1
    have hsp1 := mem_theoryRangeKeys_split hk1
    have hf1 := mem_theoryRangeKeysOnDay_fields hsp1.2
    cases hl2 : q.2.is_lab with
    | false =>
      obtain ⟨k2, hk2, hon2, hwe2⟩ := mem_writesFor_theory hl2 hw2
      have hsp2 := mem_theoryRangeKeys_split hk2
      have hf2 := mem_theoryRangeKeysOnDay_fields hsp2.2
      have ht : k2.day = k1.day ∧ k2.slot = k1.slot ∧ k2.room = k1.room := by
        rw [hwe1, hwe2] at hx2e
        unfold dkey at hx2e
        simp only [Prod.mk.injEq] at hx2e
        exact hx2e
      have hmux := hTM k1.day hsp1.1 k1.slot hf1.2.2.2.1 hf1.2.2.2.2.1
        k1.room hf1.2.2.2.2.2
      have hpp : (!p.2.is_lab &&
          isOn I v ⟨p.1, p.2.code, k1.day, k1.slot, k1.room⟩) = true := by
        rw [hl1]
        have hk1e : (⟨p.1, p.2.code, k1.day, k1.slot, k1.room⟩ : AKey) = k1 :=
          akey_eq_of_fields hf1.1.symm hf1.2.1.symm rfl rfl rfl
        rw [hk1e, hon1]
        rfl
      have hqq : (!q.2.is_lab &&
          isOn I v ⟨q.1, q.2.code, k1.day, k1.slot, k1.room⟩) = true := by
        rw [hl2]
        have hk2e : (⟨q.1, q.2.code, k1.day, k1.slot, k1.room⟩ : AKey) = k2 :=
          akey_eq_of_fields hf2.1.symm hf2.2.1.symm ht.1.symm ht.2.1.symm
            ht.2.2.symm
        rw [hk2e, hon2]
        rfl
      have := two_le_countP (pairList I)
        (fun pp => !pp.2.is_lab && isOn I v ⟨pp.1, pp.2.code, k1.day, k1.slot,
          k1.room⟩) p q hpm hqm hne hpp hqq
      omega
    | true =>
      obtain ⟨k2, hk2, hon2, hwe2⟩ := mem_writesFor_lab hl2 hw2
      have hf2 := mem_labRangeKeys_fields hk2
      have hroom : k2.room = k1.room := by
        rw [hwe1, hwe2] at hx2e
        unfold dkey at hx2e
        simp only [Prod.mk.injEq] at hx2e
        exact hx2e.2.2
      exact hTL k1.room hf1.2.2.2.2.2
        (hroom ▸ lab_rooms_for_subset I q.2.code k2.room hf2.2.2.2.2)
  | true =>
    obtain ⟨k1, hk1, hon1, hwe1⟩ := mem_writesFor_lab hl1 hw1
    have hf1 := mem_labRangeKeys_fields hk1
    cases hl2 : q.2.is_lab with
    | false =>
      obtain ⟨k2, hk2, hon2, hwe2⟩ := mem_writesFor_theory hl2 hw2
      have hsp2 := mem_theoryRangeKeys_split hk2
      have hf2 := mem_theoryRangeKeysOnDay_fields hsp2.2
      have hroom : k2.room = k1.room := by
        rw [hwe1, hwe2] at hx2e
        unfold dkey at hx2e
        simp only [Prod.mk.injEq] at hx2e
        exact hx2e.2.2
      exact hTL k2.room hf2.2.2.2.2.2
        (hroom.symm ▸ lab_rooms_for_subset I p.2.code k1.room hf1.2.2.2.2)
    | true =>
      obtain ⟨k2, hk2, hon2, hwe2⟩ := mem_writesFor_lab hl2 hw2
      have hf2 := mem_labRangeKeys_fields hk2
      have ht : k2.day = k1.day ∧ k2.slot = k1.slot ∧ k2.room = k1.room := by
        rw [hwe1, hwe2] at hx2e
        unfold dkey at hx2e
        simp only [Prod.mk.injEq] at hx2e
        exact hx2e
      have hmux := hLM k1.day hf1.2.2.1 k1.slot hf1.2.2.2.1
        k1.room (lab_rooms_for_subset I p.2.code k1.room hf1.2.2.2.2)
      have hpp : (p.2.is_lab &&
          isOn I v ⟨p.1, p.2.code, k1.day, k1.slot, k1.room⟩) = true := by
        rw [hl1]
        have hk1e : (⟨p.1, p.2.code, k1.day, k1.slot, k1.room⟩ : AKey) = k1 :=
          akey_eq_of_fields hf1.1.symm hf1.2.1.symm rfl rfl rfl
        rw [hk1e, hon1]
        rfl
      have hqq : (q.2.is_lab &&
          isOn I v ⟨q.1, q.2.code, k1.day, k1.slot, k1.room⟩) = true := by
        rw [hl2]
        have hk2e : (⟨q.1, q.2.code, k1.day, k1.slot, k1.room⟩ : AKey) = k2 :=
          akey_eq_of_fields hf2.1.symm hf2.2.1.symm ht.1.symm ht.2.1.symm
            ht.2.2.symm
        rw [hk2e, hon2]
        rfl
      have := two_le_countP (pairList I)
        (fun pp => pp.2.is_lab && isOn I v ⟨pp.1, pp.2.code, k1.day, k1.slot,
          k1.room⟩) p q hpm hqm hne hpp hqq
      omega

theorem normalWrites_dkeys_nodup (I : SolverInput) (v : TVal)
    (hTM : theoryRoomMutexOk I v) (hLM : labRoomMutexOk I v)
    (hPairs : ((pairList I).map (fun p => (p.1, p.2.code))).Nodup)
    (hD : I.days.Nodup) (hT : I.theorySlots.Nodup) (hLS : I.labSlots.Nodup)
    (hR : I.theoryRooms.Nodup)
    (hLR : ∀ code, (lab_rooms_for I code).Nodup)
    (hTL : ∀ r ∈ I.theoryRooms, r ∉ combined_labs I) :
    ((normalWrites I v).map dkey).Nodup := by
  unfold normalWrites
  rw [List.map_flatMap]
  apply nodup_flatMap_of
  · intro p _
    cases hl : p.2.is_lab with
    | false =>
      rw [writesFor_dkeys_theory I v p.1 p.2 hl]
      have hrn := (theoryRangeKeys_nodup I p.1 p.2.code hD hT hR).filter
        (isOn I v)
      apply nodup_map_of_inj _ (fun k => k) _ (by simpa using hrn)
      intro a ha b hb he
      have hfa := mem_theoryRangeKeysOnDay_fields
        (mem_theoryRangeKeys_split (List.mem_filter.mp ha).1).2
      have hfb := mem_theoryRangeKeysOnDay_fields
        (mem_theoryRangeKeys_split (List.mem_filter.mp hb).1).2
      simp only [Prod.mk.injEq] at he
      exact akey_eq_of_fields (by rw [hfa.1, hfb.1]) (by rw [hfa.2.1, hfb.2.1])
        he.1 he.2.1 he.2.2
    | true =>
      rw [writesFor_dkeys_lab I v p.1 p.2 hl]
      have hrn := (labRangeKeys_nodup I p.1 p.2.code hD hLS
        (hLR p.2.code)).filter (isOn I v)
      apply nodup_map_of_inj _ (fun k => k) _ (by simpa using hrn)
      intro a ha b hb he
      have hfa := mem_labRangeKeys_fields (List.mem_filter.mp ha).1
      have hfb := mem_labRangeKeys_fields (List.mem_filter.mp hb).1
      simp only [Prod.mk.injEq] at he
      exact akey_eq_of_fields (by rw [hfa.1, hfb.1]) (by rw [hfa.2.1, hfb.2.1])
        he.1 he.2.1 he.2.2
  · refine List.Pairwise.imp_of_mem ?_ hPairs.of_map
    intro p q hpm hqm hne
    exact writes_dkey_disjoint I v hTM hLM hTL hpm hqm hne

theorem normalWrites_room (I : SolverInput) (v : TVal) :
    ∀ w ∈ normalWrites I v, w.room ∈ I.theoryRooms ∨ w.room ∈ combined_labs I := by
  intro w hw
  obtain ⟨p, hpm, hwp⟩ := List.mem_flatMap.mp hw
  cases hl : p.2.is_lab with
  | false =>
    obtain ⟨k, hk, _, hwe⟩ := mem_writesFor_theory hl hwp
    left
    rw [hwe]
    exact (mem_theoryRangeKeysOnDay_fields
      (mem_theoryRangeKeys_split hk).2).2.2.2.2.2
  | true =>
    obtain ⟨k, hk, _, hwe⟩ := mem_writesFor_lab hl hwp
    right
    rw [hwe]
    exact lab_rooms_for_subset I p.2.code k.room
      (mem_labRangeKeys_fields hk).2.2.2.2

theorem cohortWrites_cohort_some (I : SolverInput) (v : TVal) :
    ∀ w ∈ cohortWrites I v, w.cohort ≠ none := by
  intro w hw
  unfold cohortWrites at hw
  by_cases hc : (I.enableCohort && !I.cohortMap.isEmpty) = true
  · rw [if_pos hc] at hw
    obtain ⟨sem, _, hw2⟩ := List.mem_flatMap.mp hw
    obtain ⟨c, _, hw3⟩ := List.mem_flatMap.mp hw2
    by_cases hcc : isCohortCourse I sem c.code = true
    · rw [if_pos hcc] at hw3
      obtain ⟨s, _, hw4⟩ := List.mem_flatMap.mp hw3
      unfold cohortWritesFor at hw4
      cases hfind : (((cmget I.cohortMap (sem, c.code)).getD []).find?
          (fun cd => v.cohortA s c.code cd.name)) with
      | none => rw [hfind] at hw4; cases hw4
      | some cd =>
        rw [hfind] at hw4
        obtain ⟨dt, _, hsome⟩ := List.mem_filterMap.mp hw4
        by_cases hbl : (dt.1 == "Friday" && dt.2 == 3) = true
        · rw [if_pos hbl] at hsome; cases hsome
        · rw [if_neg hbl] at hsome
          injection hsome with hww
          rw [← hww]
          intro hcontra
          cases hcontra
    · rw [if_neg hcc] at hw3
      cases hw3
  · rw [if_neg hc] at hw
    cases hw

theorem schedule_map_decomp (I : SolverInput) (v : TVal)
    (hnd : ((normalWrites I v).map dkey).Nodup)
    (hdisj : ∀ w ∈ cohortWrites I v, ∀ w' ∈ normalWrites I v,
      dkey w ≠ dkey w') :
    ∃ r, schedule_map I v =
        (normalWrites I v).map (fun w => (dkey w, dval w)) ++ r ∧
      ∀ e ∈ r, e.2.2.2 ≠ none := by
  unfold schedule_map
  rw [List.foldl_append]
  rw [foldl_dinsert_fresh (normalWrites I v) [] hnd
    (by intro w _ e he; cases he)]
  rw [List.nil_append]
  have hmain := foldl_dinsert_entries (cohortWrites I v)
    ((normalWrites I v).map (fun w => (dkey w, dval w))) []
    (fun val => val.2.2 ≠ none)
    (by intro w hw e he
        obtain ⟨w', hw', hee⟩ := List.mem_map.mp he
        rw [← hee]
        intro hcontra
        simp only at hcontra
        exact hdisj w hw w' hw' hcontra.symm)
    (by intro e he; cases he)
    (by intro w hw
        exact cohortWrites_cohort_some I v w hw)
  rw [List.append_nil] at hmain
  exact hmain

theorem map_sum_single {α : Type} (l : List α) (F : α → Nat) (a : α)
    (ha : a ∈ l) (hnd : l.Nodup) (h0 : ∀ b ∈ l, b ≠ a → F b = 0) :
    (l.map F).sum = F a := by
  induction l with
  | nil => cases ha
  | cons x rest ih =>
    rw [List.map_cons, List.sum_cons]
    rw [List.nodup_cons] at hnd
    rcases List.mem_cons.mp ha with hax | hax
    · subst hax
      have hz : (rest.map F).sum = 0 := by
        apply List.sum_eq_zero
        intro n hn
        obtain ⟨b, hb, hbe⟩ := List.mem_map.mp hn
        rw [← hbe]
        exact h0 b (by simp [hb]) (fun hba => hnd.1 (hba ▸ hb))
      rw [hz]
      exact Nat.add_zero _
    · have hxa : x ≠ a := fun hxe => hnd.1 (hxe ▸ hax)
      rw [h0 x (by simp) hxa, Nat.zero_add]
      exact ih hax hnd.2 (fun b hb => h0 b (by simp [hb]))

theorem writesFor_length (I : SolverInput) (v : TVal) (sec : String) (c : Course)
    (hTN : timesNeededOk I v) (hp : (sec, c) ∈ pairList I) :
    (writesFor I v sec c).length = c.times_needed := by
  have htn := hTN (sec, c) hp
  unfold writesFor
  cases hl : c.is_lab with
  | true =>
    rw [if_pos rfl, filterMap_if_eq_map_filter, List.length_map,
      ← List.countP_eq_length_filter]
    rw [if_pos (show ((sec, c).2.is_lab : Prop) from hl)] at htn
    exact htn
  | false =>
    rw [if_neg (by simp), filterMap_if_eq_map_filter, List.length_map,
      ← List.countP_eq_length_filter]
    rw [if_neg (show ¬((sec, c).2.is_lab = true) by simp [hl])] at htn
    exact htn

/-- C1: for every solver outcome meeting the posted exact-demand and room-mutex
constraints, with well-formed catalogs (distinct days, slots, rooms, distinct
(section, code) pairs, theory rooms disjoint from lab rooms) and cohort rooms
outside both room catalogs, the returned `schedule_map` holds exactly
`times_needed` entries valued `(section, code, None)` for each non-cohort
(section, course) pair of the selected semesters. -/
theorem schedule_map_exact_demand (I : SolverInput) (v : TVal)
    (sec : String) (c : Course)
    (hTN : timesNeededOk I v)
    (hTM : theoryRoomMutexOk I v) (hLM : labRoomMutexOk I v)
    (hPairs : ((pairList I).map (fun p => (p.1, p.2.code))).Nodup)
    (hD : I.days.Nodup) (hT : I.theorySlots.Nodup) (hLS : I.labSlots.Nodup)
    (hR : I.theoryRooms.Nodup)
    (hLR : ∀ code, (lab_rooms_for I code).Nodup)
    (hTL : ∀ r ∈ I.theoryRooms, r ∉ combined_labs I)
    (hCo : ∀ w ∈ cohortWrites I v,
      w.room ∉ I.theoryRooms ∧ w.room ∉ combined_labs I)
    (hp : (sec, c) ∈ pairList I) :
    (schedule_map I v).countP
      (fun e => decide (e.2 = (sec, c.code, none))) = c.times_needed := by
  have hnd := normalWrites_dkeys_nodup I v hTM hLM hPairs hD hT hLS hR hLR hTL
  have hdisj : ∀ w ∈ cohortWrites I v, ∀ w' ∈ normalWrites I v,
      dkey w ≠ dkey w' := by
    intro w hw w' hw' he
    have hroom : w.room = w'.room := by
      unfold dkey at he
      simp only [Prod.mk.injEq] at he
      exact he.2.2
    rcases normalWrites_room I v w' hw' with hr | hr
    · exact (hCo w hw).1 (hroom.symm ▸ hr)
    · exact (hCo w hw).2 (hroom.symm ▸ hr)
  obtain ⟨r, hsm, hrP⟩ := schedule_map_decomp I v hnd hdisj
  rw [hsm, List.countP_append]
  have hr0 : r.countP (fun e => decide (e.2 = (sec, c.code, none))) = 0 := by
    apply countP_false_of_all
    intro e he
    apply decide_eq_false
    intro hcontra
    exact hrP e he (by rw [hcontra])
  rw [hr0, Nat.add_zero, List.countP_map]
  have hstep : ∀ b : String × Course, b ∈ pairList I →
      (writesFor I v b.1 b.2).countP
        ((fun e => decide (e.2 = (sec, c.code, none))) ∘
          (fun w => (dkey w, dval w))) =
      if ((b.1, b.2.code) : String × String) = (sec, c.code)
      then (writesFor I v b.1 b.2).length else 0 := by
    intro b hb
    by_cases hbe : ((b.1, b.2.code) : String × String) = (sec, c.code)
    · rw [if_pos hbe]
      apply List.countP_eq_length.mpr
      intro w hw
      obtain ⟨hs, hc2, hcoh⟩ := writesFor_fields hw
      show decide (dval w = (sec, c.code, none)) = true
      apply decide_eq_true
      unfold dval
      rw [Prod.mk.injEq] at hbe
      rw [hs, hc2, hcoh, hbe.1, hbe.2]
    · rw [if_neg hbe]
      apply countP_false_of_all
      intro w hw
      obtain ⟨hs, hc2, hcoh⟩ := writesFor_fields hw
      show decide (dval w = (sec, c.code, none)) = false
      apply decide_eq_false
      intro hcontra
      unfold dval at hcontra
      rw [hs, hc2, hcoh] at hcontra
      simp only [Prod.mk.injEq] at hcontra
      exact hbe (by rw [Prod.mk.injEq]
                    exact ⟨hcontra.1, hcontra.2.1⟩)
  unfold normalWrites
  rw [countP_flatMap_eq_sum]
  have hsum := map_sum_single (pairList I)
    (fun b => (writesFor I v b.1 b.2).countP
      ((fun e => decide (e.2 = (sec, c.code, none))) ∘
        (fun w => (dkey w, dval w)))) (sec, c) hp hPairs.of_map
    (by intro b hb hbne
        show (writesFor I v b.1 b.2).countP _ = 0
        rw [hstep b hb]
        apply if_neg
        intro hbe
        exact hbne (List.inj_on_of_nodup_map hPairs hb hp hbe))
  rw [hsum]
  show (writesFor I v sec c).countP _ = c.times_needed
  rw [hstep (sec, c) hp, if_pos rfl]
  exact writesFor_length I v sec c hTN hp

theorem schedule_map_exact_demand_witness :
    (schedule_map c3WitInput c3WitVal).countP
      (fun e => decide (e.2 = ("S1A1", "CS101", none))) = 2 :=
  schedule_map_exact_demand c3WitInput c3WitVal "S1A1" c3WitCourse
    (by unfold timesNeededOk; decide) (by unfold theoryRoomMutexOk; decide)
    (by unfold labRoomMutexOk; decide) (by decide) (by decide) (by decide)
    (by decide) (by decide)
    (by intro code; exact List.nodup_nil)
    (by decide) (by decide) (by decide)
